import Mathlib

/-!
Verification of the tick-based Pac-Man simulation engine.

The repository contains one current implementation (`src/App.tsx`) and two
earlier variants of the same file (`src/unnamed/part_000`, `src/unnamed/part_001`,
names unknown).  Definitions in namespace `App` embed `src/App.tsx`; definitions
in namespace `P1` embed the variant `src/unnamed/part_001` (which factors ghost
traversability into `isBlockedForGhost` / `safeGhostStep` / `tryGhostMoves`).
The shared geometric data model (`Direction`, `CellType`, positions, the
wrapping step function `getNextPosition`, the board representation with
JavaScript `board[y]?.[x]` lookup semantics) is identical in all variants and
is embedded once at top level.

The file `constants.ts` (board dimensions `BOARD_WIDTH`/`BOARD_HEIGHT`,
`GAME_SPEED`, `FRIGHTENED_DURATION`, `INITIAL_BOARD`, `TOTAL_PELLETS`) is
imported by the sources but absent from the repository, so all embeddings are
parameterised over these constants and the theorems quantify over them.
-/

/-- `Direction` enum from `types.ts` (`UP, DOWN, LEFT, RIGHT, NONE`). -/
inductive Direction where
  | up
  | down
  | left
  | right
  | none
deriving DecidableEq, Repr

/-- `CellType` enum from `types.ts`
(`WALL, PELLET, EMPTY, POWER_PELLET, GHOST_HOME, GHOST_HOME_DOOR`). -/
inductive CellType where
  | wall
  | pellet
  | empty
  | powerPellet
  | ghostHome
  | ghostHomeDoor
deriving DecidableEq, Repr

/-- `GameState` enum from `types.ts`. -/
inductive GameStateK where
  | ready
  | playing
  | paused
  | gameOver
  | levelWon
deriving DecidableEq, Repr

/-- Ghost behavioural state: the `'normal' | 'frightened' | 'eaten'` union
from `types.ts`. -/
inductive GhostState where
  | normal
  | frightened
  | eaten
deriving DecidableEq, Repr

/-- `Position` from `types.ts`: a pair of JavaScript numbers.  All simulation
coordinates are integers (integer initial positions, `±1` steps, wrap to
integer bounds), so they are modelled as `Int`. -/
structure Pos where
  x : Int
  y : Int
deriving DecidableEq, Repr

theorem Pos.ext2 {a b : Pos} (hx : a.x = b.x) (hy : a.y = b.y) : a = b := by
  cases a; cases b; simp_all

/-- `Pacman` record from `types.ts`. -/
structure PacmanT where
  position : Pos
  direction : Direction
  nextDirection : Direction
  isMouthOpen : Bool
deriving DecidableEq, Repr

/-- `Ghost` record from `types.ts`. -/
structure Ghost where
  id : Int
  position : Pos
  direction : Direction
  state : GhostState
  color : String
  spawn : Pos
  scatterTarget : Pos
deriving DecidableEq, Repr

/-- The global ghost mode (`'chase' | 'scatter'`). -/
inductive Mode where
  | chase
  | scatter
deriving DecidableEq, Repr

/-- A board is the `CellType[][]` value: a list of rows. -/
abbrev Board := List (List CellType)

/-- JavaScript `board[pos.y]?.[pos.x]` lookup: `none` models `undefined`
(out-of-range or negative index). -/
def cellAt (board : Board) (p : Pos) : Option CellType :=
  if p.y < 0 then none
  else (board.get? p.y.toNat).bind
    (fun row => if p.x < 0 then none else row.get? p.x.toNat)

/-- The unwrapped one-cell move of `getNextPosition` (`src/App.tsx` lines
33–38): the `switch (dir)` block before the tunnel logic. -/
def rawStep (pos : Pos) (dir : Direction) : Pos :=
  match dir with
  | Direction.up => ⟨pos.x, pos.y - 1⟩
  | Direction.down => ⟨pos.x, pos.y + 1⟩
  | Direction.left => ⟨pos.x - 1, pos.y⟩
  | Direction.right => ⟨pos.x + 1, pos.y⟩
  | Direction.none => ⟨pos.x, pos.y⟩

/-- One coordinate of the tunnel logic of `getNextPosition` (`src/App.tsx`
lines 40–43): the sequential mutations `if (v < 0) v = B - 1; if (v >= B)
v = 0;`. -/
def wrapCoord (B v : Int) : Int :=
  if (if v < 0 then B - 1 else v) ≥ B then 0 else if v < 0 then B - 1 else v

/-- `getNextPosition` from `src/App.tsx` lines 31–45 (identical in all
variants): one-cell move in `dir` followed by the tunnel wrap checks,
parameterised by the `BOARD_WIDTH`/`BOARD_HEIGHT` constants. -/
def getNextPosition (W H : Int) (pos : Pos) (dir : Direction) : Pos :=
  ⟨wrapCoord W (rawStep pos dir).x, wrapCoord H (rawStep pos dir).y⟩

/-- `isWall` from `src/App.tsx` lines 47–50: blocked for the player iff the
cell is `WALL`, `GHOST_HOME` or `GHOST_HOME_DOOR` (an `undefined` lookup
compares unequal to all three and is therefore not a wall). -/
def isWall (pos : Pos) (board : Board) : Bool :=
  let cell := cellAt board pos
  cell == some CellType.wall || cell == some CellType.ghostHome ||
    cell == some CellType.ghostHomeDoor

/-- The `oppositeDirection` lookup table of `moveGhosts`
(`src/App.tsx` lines 427–431): `NONE ↦ NONE`. -/
def oppositeDirection (d : Direction) : Direction :=
  match d with
  | Direction.up => Direction.down
  | Direction.down => Direction.up
  | Direction.left => Direction.right
  | Direction.right => Direction.left
  | Direction.none => Direction.none

/-- The `oppositeDirection` lookup table used in the power-pellet branch of
`handleCollisions` (`src/App.tsx` lines 511–515), which maps `NONE ↦ UP`. -/
def oppositeDirectionHC (d : Direction) : Direction :=
  match d with
  | Direction.up => Direction.down
  | Direction.down => Direction.up
  | Direction.left => Direction.right
  | Direction.right => Direction.left
  | Direction.none => Direction.up

/-- The four movement directions in the fixed order used by every loop of the
source (`[Direction.UP, Direction.DOWN, Direction.LEFT, Direction.RIGHT]`). -/
def dirs4 : List Direction :=
  [Direction.up, Direction.down, Direction.left, Direction.right]

/-- A position lies in the wrapped coordinate range `[0,W) × [0,H)`. -/
def inRange (W H : Int) (p : Pos) : Prop :=
  0 ≤ p.x ∧ p.x < W ∧ 0 ≤ p.y ∧ p.y < H

instance (W H : Int) (p : Pos) : Decidable (inRange W H p) := by
  unfold inRange; infer_instance

/-- External advisory targets as typed by the source
(`Record<number, Position>`): a finite id-to-position mapping. -/
abbrev TargetsMap := List (Int × Pos)

/-- `geminiTargets[ghost.id]` lookup. -/
def lookupTarget (t : TargetsMap) (id : Int) : Option Pos :=
  (t.find? (fun e => e.1 == id)).map (fun e => e.2)

namespace App

/-- The two `continue` conditions of the BFS in `findNextMove`
(`src/App.tsx` lines 65–66 and 81–82): a generated neighbour is skipped when
its cell is `WALL`, or is `GHOST_HOME` while the ghost is not eaten.
`GHOST_HOME_DOOR` and `undefined` cells are not skipped. -/
def bfsSkip (board : Board) (st : GhostState) (p : Pos) : Bool :=
  cellAt board p == some CellType.wall ||
    (cellAt board p == some CellType.ghostHome && !(st == GhostState.eaten))

/-- `visited.add` for the JavaScript `Set` (idempotent insertion). -/
def addVisited (v : List Pos) (p : Pos) : List Pos :=
  if p ∈ v then v else v ++ [p]

/-- The first-ring loop of `findNextMove` (`src/App.tsx` lines 60–71): scans
the four directions from `start` (with the in-range guard of line 62), either
returning the direction that reaches `goal` directly or producing the initial
queue and visited set.  Note the source performs no `visited` check here. -/
def ringLoop (W H : Int) (board : Board) (st : GhostState) (start goal : Pos) :
    List Direction → List (Pos × Direction) → List Pos →
    Sum Direction (List (Pos × Direction) × List Pos)
  | [], q, v => Sum.inr (q, v)
  | d :: ds, q, v =>
    let np := getNextPosition W H start d
    if np.y < 0 ∨ np.y ≥ H ∨ np.x < 0 ∨ np.x ≥ W then
      ringLoop W H board st start goal ds q v
    else if bfsSkip board st np then ringLoop W H board st start goal ds q v
    else if np = goal then Sum.inl d
    else ringLoop W H board st start goal ds (q ++ [(np, d)]) (addVisited v np)

/-- The inner direction loop of the main BFS loop (`src/App.tsx` lines
76–88): for one dequeued entry `(p, fs)`, scan the four directions, either
returning `fs` when `goal` is generated or accumulating fresh queue entries
and visited positions. -/
def expand (W H : Int) (board : Board) (st : GhostState) (goal : Pos)
    (p : Pos) (fs : Direction) :
    List Direction → List (Pos × Direction) → List Pos →
    Sum Direction (List (Pos × Direction) × List Pos)
  | [], q, v => Sum.inr (q, v)
  | d :: ds, q, v =>
    let np := getNextPosition W H p d
    if np ∈ v then expand W H board st goal p fs ds q v
    else if bfsSkip board st np then expand W H board st goal p fs ds q v
    else if np = goal then Sum.inl fs
    else expand W H board st goal p fs ds (q ++ [(np, fs)]) (addVisited v np)

/-- The `while (head < queue.length)` loop of `findNextMove` (`src/App.tsx`
lines 73–89).  The queue-with-head-index is modelled as the list of not yet
processed entries; fuel bounds the number of dequeues (the source loop
terminates because every enqueue adds a fresh visited position). -/
def bfsLoop (W H : Int) (board : Board) (st : GhostState) (goal : Pos) :
    Nat → List (Pos × Direction) → List Pos → Option Direction
  | 0, _, _ => Option.none
  | _ + 1, [], _ => Option.none
  | fuel + 1, (p, fs) :: rest, v =>
    match expand W H board st goal p fs dirs4 [] v with
    | Sum.inl d => Option.some d
    | Sum.inr (news, v2) => bfsLoop W H board st goal fuel (rest ++ news) v2

/-- `findNextMove` from `src/App.tsx` lines 53–91: BFS over the
4-neighbourhood with expansion order Up, Down, Left, Right, skipping `WALL`
cells and (for non-eaten ghosts) `GHOST_HOME` cells, returning the first-step
direction of the first path that generates `end`.  Fuel `W*H + 4` dominates
the number of possible enqueues (at most 4 first-ring entries plus one per
fresh visited cell). -/
def findNextMove (W H : Int) (board : Board) (start goal : Pos)
    (st : GhostState) : Option Direction :=
  match ringLoop W H board st start goal dirs4 [] [start] with
  | Sum.inl d => Option.some d
  | Sum.inr (q, v) => bfsLoop W H board st goal (W.toNat * H.toNat + 4) q v

/-- `getChaseTarget` from `src/App.tsx` lines 93–143.  Clyde's Euclidean
distance test `Math.sqrt(dx² + dy²) > 8` is embedded as `dx² + dy² > 64`,
which is equivalent on integers. -/
def getChaseTarget (ghost : Ghost) (pacman : PacmanT) (ghosts : List Ghost) :
    Pos :=
  if ghost.id = 1 then pacman.position
  else if ghost.id = 2 then
    match pacman.direction with
    | Direction.up => ⟨pacman.position.x, pacman.position.y - 4⟩
    | Direction.down => ⟨pacman.position.x, pacman.position.y + 4⟩
    | Direction.left => ⟨pacman.position.x - 4, pacman.position.y⟩
    | Direction.right => ⟨pacman.position.x + 4, pacman.position.y⟩
    | Direction.none => pacman.position
  else if ghost.id = 3 then
    match ghosts.find? (fun g => g.id == 1) with
    | Option.none => pacman.position
    | Option.some blinky =>
      let offset : Pos :=
        match pacman.direction with
        | Direction.up => ⟨0, -2⟩
        | Direction.down => ⟨0, 2⟩
        | Direction.left => ⟨-2, 0⟩
        | Direction.right => ⟨2, 0⟩
        | Direction.none => ⟨0, 0⟩
      let pivot : Pos :=
        ⟨pacman.position.x + offset.x, pacman.position.y + offset.y⟩
      ⟨pivot.x + (pivot.x - blinky.position.x),
        pivot.y + (pivot.y - blinky.position.y)⟩
  else if ghost.id = 4 then
    let dx := ghost.position.x - pacman.position.x
    let dy := ghost.position.y - pacman.position.y
    if dx * dx + dy * dy > 64 then pacman.position else ghost.scatterTarget
  else pacman.position

/-- `movePacman` from `src/App.tsx` lines 407–423: turn to the buffered
direction if that cell is walkable, otherwise keep going; stop (and only
toggle the mouth) if both lead into walls. -/
def movePacman (W H : Int) (board : Board) (p : PacmanT) : PacmanT :=
  let nextPos := getNextPosition W H p.position p.nextDirection
  if !(isWall nextPos board) then
    { p with position := getNextPosition W H p.position p.nextDirection,
             direction := p.nextDirection, isMouthOpen := !p.isMouthOpen }
  else
    let nextPos2 := getNextPosition W H p.position p.direction
    if isWall nextPos2 board then { p with isMouthOpen := !p.isMouthOpen }
    else { p with position := nextPos2, isMouthOpen := !p.isMouthOpen }

/-- The target selection of the NORMAL branch of `moveGhosts`
(`src/App.tsx` lines 462–469): an advisory target for this ghost id is used
only in chase mode; otherwise the per-ghost chase target (chase) or the fixed
scatter target (scatter). -/
def ghostTargetSel (mode : Mode) (gem : Option TargetsMap) (ghost : Ghost)
    (pacman : PacmanT) (currentGhosts : List Ghost) : Pos :=
  match mode, gem with
  | Mode.chase, Option.some t =>
    match lookupTarget t ghost.id with
    | Option.some tp => tp
    | Option.none => getChaseTarget ghost pacman currentGhosts
  | Mode.chase, Option.none => getChaseTarget ghost pacman currentGhosts
  | Mode.scatter, _ => ghost.scatterTarget

/-- The valid-direction list of the FRIGHTENED branch of `moveGhosts`
(`src/App.tsx` lines 445–453): non-reversing directions whose target cell is
neither `WALL` nor `GHOST_HOME`. -/
def frightenedValidDirections (W H : Int) (board : Board) (ghost : Ghost) :
    List Direction :=
  dirs4.filter (fun dir =>
    dir ≠ oppositeDirection ghost.direction &&
      (let cell := cellAt board (getNextPosition W H ghost.position dir)
       cell ≠ some CellType.wall && cell ≠ some CellType.ghostHome))

/-- The per-ghost body of `moveGhosts` (`src/App.tsx` lines 426–477).
`Math.floor(Math.random() * len)` is modelled by an arbitrary random draw
`rnd ghost.id` reduced modulo the candidate count. -/
def moveGhost (W H : Int) (board : Board) (pacman : PacmanT) (mode : Mode)
    (gem : Option TargetsMap) (currentGhosts : List Ghost) (rnd : Int → Nat)
    (ghost : Ghost) : Ghost :=
  if ghost.state = GhostState.eaten then
    if ghost.position.x = ghost.spawn.x ∧ ghost.position.y = ghost.spawn.y then
      { ghost with state := GhostState.normal, direction := Direction.up }
    else
      let nextDir := findNextMove W H board ghost.position ghost.spawn
        ghost.state
      let d := nextDir.getD (oppositeDirection ghost.direction)
      { ghost with position := getNextPosition W H ghost.position d,
                   direction := d }
  else if ghost.state = GhostState.frightened then
    let validDirections := frightenedValidDirections W H board ghost
    let nextDir :=
      if validDirections.length > 0 then
        (validDirections.get? (rnd ghost.id % validDirections.length)).getD
          Direction.none
      else oppositeDirection ghost.direction
    { ghost with position := getNextPosition W H ghost.position nextDir,
                 direction := nextDir }
  else
    let targetPos := ghostTargetSel mode gem ghost pacman currentGhosts
    let bestDir := findNextMove W H board ghost.position targetPos ghost.state
    let d := bestDir.getD ghost.direction
    { ghost with position := getNextPosition W H ghost.position d,
                 direction := d }

/-- `moveGhosts` from `src/App.tsx` lines 425–478. -/
def moveGhosts (W H : Int) (board : Board) (pacman : PacmanT) (mode : Mode)
    (gem : Option TargetsMap) (rnd : Int → Nat) (ghosts : List Ghost) :
    List Ghost :=
  ghosts.map (moveGhost W H board pacman mode gem ghosts rnd)

end App

/-- The React component state of `App` (`src/App.tsx` lines 265–279) that the
simulation reads and writes. -/
structure AppState where
  board : Board
  pacman : PacmanT
  ghosts : List Ghost
  gameState : GameStateK
  score : Int
  lives : Int
  eatenPellets : Int
  frightenedTicks : Int
  ghostMode : Mode
  modeTicks : Option ℚ
  scheduleIndex : Int
  geminiTargets : Option TargetsMap
deriving DecidableEq, Repr

namespace App

/-- The pellet-cell overwrite of `handleCollisions` (`src/App.tsx` lines
522–524): copy the board and assign `EMPTY` at the player's cell (a no-op for
indices outside the array, which the guarding pellet check rules out — JS
would throw there). -/
def setCell (b : Board) (p : Pos) (c : CellType) : Board :=
  if p.y < 0 ∨ p.x < 0 then b
  else b.set p.y.toNat (((b.get? p.y.toNat).getD []).set p.x.toNat c)

/-- The ghost-collision loop of `handleCollisions` (`src/App.tsx` lines
482–493): scan the (stale) ghost list; a co-located frightened ghost yields
+200 and is marked eaten (by id, in the accumulated state); the first
co-located normal ghost sets `pacmanHasDied` and breaks. -/
def scanGhosts (pacPos : Pos) : List Ghost → AppState → AppState × Bool
  | [], s => (s, false)
  | g :: gs, s =>
    if g.position.x = pacPos.x ∧ g.position.y = pacPos.y then
      if g.state = GhostState.frightened then
        scanGhosts pacPos gs
          { s with score := s.score + 200,
                   ghosts := s.ghosts.map (fun g2 =>
                     if g2.id = g.id then { g2 with state := GhostState.eaten }
                     else g2) }
      else if g.state = GhostState.normal then (s, true)
      else scanGhosts pacPos gs s
    else scanGhosts pacPos gs s

/-- `handleCollisions` from `src/App.tsx` lines 480–526.  The callback closes
over the `pacman`, `ghosts` and `board` values of the render in which the
running tick was scheduled (the tick-entry state), while its `set*` calls
apply to the accumulated state `s`; the stale reads are therefore explicit
parameters. -/
def handleCollisions (FRIGHTENED_DURATION : Int) (stalePacman : PacmanT)
    (staleGhosts : List Ghost) (staleBoard : Board) (s : AppState) :
    AppState :=
  let scanned := scanGhosts stalePacman.position staleGhosts s
  let s1 := scanned.1
  if scanned.2 then
    { s1 with lives := s1.lives - 1, gameState := GameStateK.paused }
  else
    let cellUnderPacman := cellAt staleBoard stalePacman.position
    if cellUnderPacman = some CellType.pellet ∨
        cellUnderPacman = some CellType.powerPellet then
      let s2 :=
        if cellUnderPacman = some CellType.pellet then
          { s1 with score := s1.score + 10 }
        else
          { s1 with score := s1.score + 50,
                    frightenedTicks := FRIGHTENED_DURATION,
                    ghosts := s1.ghosts.map (fun g =>
                      if g.state ≠ GhostState.eaten then
                        { g with state := GhostState.frightened,
                                 direction := oppositeDirectionHC g.direction }
                      else g) }
      { s2 with eatenPellets := s2.eatenPellets + 1,
                board := setCell staleBoard stalePacman.position
                  CellType.empty }
    else s1

/-- `GHOST_MODE_SCHEDULE` from `src/App.tsx` lines 20–29; `none` models the
final `Infinity` duration (durations in milliseconds). -/
def GHOST_MODE_SCHEDULE : List (Mode × Option ℚ) :=
  [(Mode.scatter, some 7000), (Mode.chase, some 20000),
   (Mode.scatter, some 7000), (Mode.chase, some 20000),
   (Mode.scatter, some 5000), (Mode.chase, some 20000),
   (Mode.scatter, some 5000), (Mode.chase, Option.none)]

/-- The frightened/mode-schedule part of `gameTick` (`src/App.tsx` lines
556–574).  `frightenedTicks` and `scheduleIndex` are read from the closure of
the scheduling render (tick-entry state, the stale parameters); `setModeTicks`
uses a functional updater and reads the accumulated value.  `Infinity`
mode-ticks are `none`; `Infinity - 1 = Infinity` and `Infinity <= 0` is
false. -/
def tickTail (GAME_SPEED : ℚ) (staleFrightenedTicks : Int)
    (staleScheduleIndex : Int) (s : AppState) : AppState :=
  if staleFrightenedTicks > 0 then
    let newTicks := staleFrightenedTicks - 1
    let s2 := { s with frightenedTicks := newTicks }
    if newTicks = 0 then
      { s2 with ghosts := s2.ghosts.map (fun g =>
          if g.state = GhostState.frightened then
            { g with state := GhostState.normal }
          else g) }
    else s2
  else
    let newTicks : Option ℚ := s.modeTicks.map (fun q => q - 1)
    let expired := match newTicks with
      | Option.some q => decide (q ≤ 0)
      | Option.none => false
    if expired then
      let newIndex := (staleScheduleIndex + 1) % 8
      let nextEntry := (GHOST_MODE_SCHEDULE.get? newIndex.toNat).getD
        (Mode.chase, Option.none)
      { s with scheduleIndex := newIndex, ghostMode := nextEntry.1,
               modeTicks := nextEntry.2.map (fun dur => dur / GAME_SPEED) }
    else { s with modeTicks := newTicks }

/-- One full `gameTick` (`src/App.tsx` lines 551–575): move the player, move
the ghosts, resolve collisions, then advance the frightened/mode timers.  The
three callbacks and the tail all close over the state of the render that
scheduled this tick (`s`), while their `set*` updaters apply sequentially to
the accumulated state. -/
def gameTick (W H : Int) (GAME_SPEED : ℚ) (FRIGHTENED_DURATION : Int)
    (rnd : Int → Nat) (s : AppState) : AppState :=
  let pac2 := movePacman W H s.board s.pacman
  let ghosts2 := moveGhosts W H s.board s.pacman s.ghostMode s.geminiTargets
    rnd s.ghosts
  let s1 := { s with pacman := pac2, ghosts := ghosts2 }
  let s2 := handleCollisions FRIGHTENED_DURATION s.pacman s.ghosts s.board s1
  tickTail GAME_SPEED s.frightenedTicks s.scheduleIndex s2

end App

/-- A JSON value as produced by `JSON.parse` (JavaScript numbers carry
possible fractional parts, so they are modelled as rationals). -/
inductive JVal where
  | jnull
  | jbool (b : Bool)
  | jnum (q : ℚ)
  | jstr (s : String)
  | jobj (fields : List (String × JVal))

/-- JavaScript truthiness of a JSON value. -/
def truthy : JVal → Bool
  | JVal.jnull => false
  | JVal.jbool b => b
  | JVal.jnum q => decide (q ≠ 0)
  | JVal.jstr s => decide (s ≠ "")
  | JVal.jobj _ => true

/-- Property access `v[key]`: `none` models `undefined`. -/
def getField : JVal → String → Option JVal
  | JVal.jobj fields, k =>
    (fields.find? (fun e => e.1 == k)).map (fun e => e.2)
  | _, _ => Option.none

/-- Truthiness of a possibly-`undefined` value (`undefined` is falsy). -/
def truthyOpt : Option JVal → Bool
  | Option.none => false
  | Option.some v => truthy v

/-- The hive-mind status union of `src/App.tsx` line 145. -/
inductive HiveStatus where
  | offline
  | thinking
  | active
  | error
deriving DecidableEq, Repr

namespace App

/-- The acceptance test of `callHiveMind` (`src/App.tsx` line 375):
`targets && targets['1'] && targets['2'] && targets['3'] && targets['4']`. -/
def hiveAccept (targets : JVal) : Bool :=
  truthy targets && truthyOpt (getField targets "1") &&
    truthyOpt (getField targets "2") && truthyOpt (getField targets "3") &&
    truthyOpt (getField targets "4")

/-- The state effect of one `callHiveMind` completion (`src/App.tsx` lines
354–392): `response = none` models any thrown error (API failure, JSON parse
failure); acceptance stores the parsed object and sets status `active`; every
failure path reaches the `catch` block, which sets status `error` and leaves
the stored targets untouched.  (The later wall-clock `setTimeout` resets are
outside the tick model.) -/
def hiveUpdate (response : Option JVal) (prevTargets : Option JVal) :
    Option JVal × HiveStatus :=
  match response with
  | Option.none => (prevTargets, HiveStatus.error)
  | Option.some t =>
    if hiveAccept t then (Option.some t, HiveStatus.active)
    else (prevTargets, HiveStatus.error)

end App

namespace P1

/-- `isBlockedForGhost` from `src/unnamed/part_001` lines 52–69: blocked when
the target cell is out of bounds or a wall, or when a non-eaten ghost would
enter `GHOST_HOME`/`GHOST_HOME_DOOR` from a cell that is neither. -/
def isBlockedForGhost (currentPos nextPos : Pos) (board : Board)
    (state : GhostState) : Bool :=
  match cellAt board nextPos with
  | Option.none => true
  | Option.some nextCell =>
    if nextCell = CellType.wall then true
    else
      let currentCell := cellAt board currentPos
      let isEnteringGhostHome :=
        (nextCell = CellType.ghostHome ∨ nextCell = CellType.ghostHomeDoor) ∧
          currentCell ≠ some CellType.ghostHome ∧
          currentCell ≠ some CellType.ghostHomeDoor
      if isEnteringGhostHome ∧ state ≠ GhostState.eaten then true else false

/-- `safeGhostStep` from `src/unnamed/part_001` lines 72–82. -/
def safeGhostStep (W H : Int) (pos : Pos) (dir : Direction) (board : Board)
    (state : GhostState) : Option (Pos × Direction) :=
  if dir = Direction.none then Option.none
  else
    let nxt := getNextPosition W H pos dir
    if isBlockedForGhost pos nxt board state then Option.none
    else Option.some (nxt, dir)

/-- `tryGhostMoves` from `src/unnamed/part_001` lines 85–96: first legal step
among the candidate directions, in order. -/
def tryGhostMoves (W H : Int) (pos : Pos) (candidates : List Direction)
    (board : Board) (state : GhostState) : Option (Pos × Direction) :=
  match candidates with
  | [] => Option.none
  | d :: ds =>
    match safeGhostStep W H pos d board state with
    | Option.some step => Option.some step
    | Option.none => tryGhostMoves W H pos ds board state

/-- First ring of the `findNextMove` variant of `src/unnamed/part_001`
(lines 106–113), which delegates blocking to `isBlockedForGhost` and has no
separate bounds check. -/
def ringLoop (W H : Int) (board : Board) (st : GhostState) (start goal : Pos) :
    List Direction → List (Pos × Direction) → List Pos →
    Sum Direction (List (Pos × Direction) × List Pos)
  | [], q, v => Sum.inr (q, v)
  | d :: ds, q, v =>
    let np := getNextPosition W H start d
    if isBlockedForGhost start np board st then
      ringLoop W H board st start goal ds q v
    else if np = goal then Sum.inl d
    else ringLoop W H board st start goal ds (q ++ [(np, d)]) (App.addVisited v np)

/-- Inner direction loop of the main BFS loop of the `findNextMove` variant
of `src/unnamed/part_001` (lines 118–128). -/
def expand (W H : Int) (board : Board) (st : GhostState) (goal : Pos)
    (p : Pos) (fs : Direction) :
    List Direction → List (Pos × Direction) → List Pos →
    Sum Direction (List (Pos × Direction) × List Pos)
  | [], q, v => Sum.inr (q, v)
  | d :: ds, q, v =>
    let np := getNextPosition W H p d
    if np ∈ v then expand W H board st goal p fs ds q v
    else if isBlockedForGhost p np board st then
      expand W H board st goal p fs ds q v
    else if np = goal then Sum.inl fs
    else expand W H board st goal p fs ds (q ++ [(np, fs)]) (App.addVisited v np)

/-- Main loop of the `findNextMove` variant of `src/unnamed/part_001`
(lines 115–129). -/
def bfsLoop (W H : Int) (board : Board) (st : GhostState) (goal : Pos) :
    Nat → List (Pos × Direction) → List Pos → Option Direction
  | 0, _, _ => Option.none
  | _ + 1, [], _ => Option.none
  | fuel + 1, (p, fs) :: rest, v =>
    match expand W H board st goal p fs dirs4 [] v with
    | Sum.inl d => Option.some d
    | Sum.inr (news, v2) => bfsLoop W H board st goal fuel (rest ++ news) v2

/-- `findNextMove` from `src/unnamed/part_001` lines 99–131. -/
def findNextMove (W H : Int) (board : Board) (start goal : Pos)
    (st : GhostState) : Option Direction :=
  match ringLoop W H board st start goal dirs4 [] [start] with
  | Sum.inl d => Option.some d
  | Sum.inr (q, v) => bfsLoop W H board st goal (W.toNat * H.toNat + 4) q v

/-- The NORMAL (chase/scatter) branch of the per-ghost body of `moveGhosts`
from `src/unnamed/part_001` lines 500–521: follow the BFS first step only if
it is non-reversing and legal, otherwise take the first legal step among the
current direction followed by the remaining non-reversing directions.
`Direction` is a numeric enum with `UP = 0` (`src/unnamed/part_002`), so the
guard `if (bestDir && candidates.includes(bestDir))` is falsy when the BFS
returns UP: a BFS result of UP is ignored and the fallback is taken. -/
def moveGhostNormal (W H : Int) (board : Board) (pacman : PacmanT)
    (mode : Mode) (gem : Option TargetsMap) (currentGhosts : List Ghost)
    (ghost : Ghost) : Ghost :=
  let targetPos := App.ghostTargetSel mode gem ghost pacman currentGhosts
  let candidates := dirs4.filter (fun d => d ≠ oppositeDirection ghost.direction)
  let fallback :=
    match tryGhostMoves W H ghost.position
        (ghost.direction :: candidates.filter (fun d => d ≠ ghost.direction))
        board ghost.state with
    | Option.some st2 => { ghost with position := st2.1, direction := st2.2 }
    | Option.none => ghost
  match findNextMove W H board ghost.position targetPos ghost.state with
  | Option.some bd =>
    if bd ≠ Direction.up ∧ bd ∈ candidates then
      match safeGhostStep W H ghost.position bd board ghost.state with
      | Option.some st2 => { ghost with position := st2.1, direction := st2.2 }
      | Option.none => fallback
    else fallback
  | Option.none => fallback

/-- The per-ghost body of `moveGhosts` from `src/unnamed/part_001` lines
466–522: eaten ghosts path home with safe-step fallbacks; frightened ghosts
move randomly among allowed, preferably non-reversing, directions; normal
ghosts follow `moveGhostNormal`. In the eaten branch the source selects with
`nextDir ? safeGhostStep(...) : tryGhostMoves(...)`; `Direction.UP` is the
numeric enum value 0 (`src/unnamed/part_002`) and hence falsy, so a BFS
result of UP takes the tryGhostMoves route, like `null`. -/
def moveGhost (W H : Int) (board : Board) (pacman : PacmanT) (mode : Mode)
    (gem : Option TargetsMap) (currentGhosts : List Ghost) (rnd : Int → Nat)
    (ghost : Ghost) : Ghost :=
  if ghost.state = GhostState.eaten then
    if ghost.position.x = ghost.spawn.x ∧ ghost.position.y = ghost.spawn.y then
      { ghost with state := GhostState.normal, direction := Direction.up }
    else
      let nextDir := findNextMove W H board ghost.position ghost.spawn
        ghost.state
      let fallbackDirs :=
        [oppositeDirection ghost.direction, ghost.direction].filter
          (fun d => d ≠ Direction.none)
      let step :=
        match nextDir with
        | Option.some d =>
          if d = Direction.up then
            tryGhostMoves W H ghost.position fallbackDirs board ghost.state
          else safeGhostStep W H ghost.position d board ghost.state
        | Option.none =>
          tryGhostMoves W H ghost.position fallbackDirs board ghost.state
      match step with
      | Option.some st2 =>
        { ghost with position := st2.1, direction := st2.2 }
      | Option.none => ghost
  else if ghost.state = GhostState.frightened then
    let allowedDirs := dirs4.filter (fun dir =>
      !(isBlockedForGhost ghost.position
        (getNextPosition W H ghost.position dir) board ghost.state))
    let nonReversingDirs := allowedDirs.filter
      (fun d => d ≠ oppositeDirection ghost.direction)
    let moveCandidates :=
      if nonReversingDirs.length > 0 then nonReversingDirs else allowedDirs
    let randomDir :=
      (moveCandidates.get? (rnd ghost.id % moveCandidates.length)).getD
        Direction.none
    match safeGhostStep W H ghost.position randomDir board ghost.state with
    | Option.some st2 => { ghost with position := st2.1, direction := st2.2 }
    | Option.none => ghost
  else moveGhostNormal W H board pacman mode gem currentGhosts ghost

end P1

/-- A single BFS edge of the `src/App.tsx` pathfinding graph: `w` is reached
from `v` by one of the four direction steps and is not skipped by the BFS
blocking rule (`WALL`, or `GHOST_HOME` for a non-eaten ghost). -/
def BfsEdge (W H : Int) (board : Board) (st : GhostState) (v w : Pos) : Prop :=
  ∃ d ∈ dirs4, w = getNextPosition W H v d ∧ App.bfsSkip board st w = false

/-- `ReachN W H b st u v n`: there is a walk of `n` BFS edges from `u` to `v`
under the `src/App.tsx` traversability rules. -/
inductive ReachN (W H : Int) (board : Board) (st : GhostState) (u : Pos) :
    Pos → Nat → Prop where
  | refl : ReachN W H board st u u 0
  | snoc {v w : Pos} {n : Nat} : ReachN W H board st u v n →
      BfsEdge W H board st v w → ReachN W H board st u w (n + 1)

/-- Number of `PELLET`/`POWER_PELLET` cells remaining on a board. -/
def pelletCount (b : Board) : Nat :=
  (b.map (fun row => row.countP
    (fun c => c == CellType.pellet || c == CellType.powerPellet))).sum

/-- A 7×3 corridor: one open row between wall rows. -/
def corridorBoard : Board :=
  [[CellType.wall, CellType.wall, CellType.wall, CellType.wall, CellType.wall,
    CellType.wall, CellType.wall],
   [CellType.wall, CellType.empty, CellType.empty, CellType.empty,
    CellType.empty, CellType.empty, CellType.wall],
   [CellType.wall, CellType.wall, CellType.wall, CellType.wall, CellType.wall,
    CellType.wall, CellType.wall]]

/-- A 5×3 corridor whose middle cell is a `GHOST_HOME_DOOR`. -/
def doorBoard : Board :=
  [[CellType.wall, CellType.wall, CellType.wall, CellType.wall, CellType.wall],
   [CellType.wall, CellType.empty, CellType.ghostHomeDoor, CellType.empty,
    CellType.wall],
   [CellType.wall, CellType.wall, CellType.wall, CellType.wall, CellType.wall]]

/-- A fully open 3×3 board. -/
def open3Board : Board :=
  [[CellType.empty, CellType.empty, CellType.empty],
   [CellType.empty, CellType.empty, CellType.empty],
   [CellType.empty, CellType.empty, CellType.empty]]

/-- A 3×1 board holding two pellets. -/
def pelletRowBoard : Board :=
  [[CellType.pellet, CellType.pellet, CellType.empty]]

/-- A normal ghost in the corridor moving right, with its scatter target
behind it. -/
def ghostRightward : Ghost :=
  { id := 1, position := ⟨3, 1⟩, direction := Direction.right,
    state := GhostState.normal, color := "bg-red-500", spawn := ⟨3, 1⟩,
    scatterTarget := ⟨1, 1⟩ }

/-- A player actor standing at the right end of the corridor. -/
def pacCorridor : PacmanT :=
  { position := ⟨5, 1⟩, direction := Direction.right,
    nextDirection := Direction.right, isMouthOpen := true }

/-- A player actor on the pellet-row board, on the cell holding a pellet. -/
def pacOnPellet : PacmanT :=
  { position := ⟨1, 0⟩, direction := Direction.right,
    nextDirection := Direction.right, isMouthOpen := true }

/-- A normal ghost co-located with `pacOnPellet`. -/
def ghostOnPac : Ghost :=
  { id := 2, position := ⟨1, 0⟩, direction := Direction.left,
    state := GhostState.normal, color := "bg-pink-500", spawn := ⟨1, 0⟩,
    scatterTarget := ⟨0, 0⟩ }

/-- A frightened ghost used in sample states. -/
def ghostFrightenedSample : Ghost :=
  { id := 3, position := ⟨2, 0⟩, direction := Direction.left,
    state := GhostState.frightened, color := "bg-cyan-500", spawn := ⟨2, 0⟩,
    scatterTarget := ⟨0, 0⟩ }

/-- A sample component state for concrete evaluations. -/
def sampleState : AppState :=
  { board := pelletRowBoard, pacman := pacOnPellet, ghosts := [ghostOnPac],
    gameState := GameStateK.playing, score := 0, lives := 3, eatenPellets := 0,
    frightenedTicks := 0, ghostMode := Mode.scatter, modeTicks := some 70,
    scheduleIndex := 0, geminiTargets := Option.none }

/-- A sample state whose frightened countdown is about to expire. -/
def sampleStateFrightened : AppState :=
  { board := pelletRowBoard,
    pacman := { position := ⟨2, 0⟩, direction := Direction.left,
                nextDirection := Direction.left, isMouthOpen := true },
    ghosts := [ghostFrightenedSample], gameState := GameStateK.playing,
    score := 0, lives := 3, eatenPellets := 0, frightenedTicks := 1,
    ghostMode := Mode.scatter, modeTicks := some 70, scheduleIndex := 0,
    geminiTargets := Option.none }

/-- A state holding a stored advisory target, with the player on a power
pellet and the ghosts elsewhere. -/
def sampleStatePower : AppState :=
  { board := [[CellType.powerPellet, CellType.empty, CellType.empty]],
    pacman := { position := ⟨0, 0⟩, direction := Direction.left,
                nextDirection := Direction.left, isMouthOpen := true },
    ghosts := [{ id := 1, position := ⟨2, 0⟩, direction := Direction.left,
                 state := GhostState.normal, color := "bg-red-500",
                 spawn := ⟨2, 0⟩, scatterTarget := ⟨2, 0⟩ }],
    gameState := GameStateK.playing, score := 0, lives := 3, eatenPellets := 0,
    frightenedTicks := 0, ghostMode := Mode.chase, modeTicks := some 70,
    scheduleIndex := 1, geminiTargets := some [(1, ⟨5, 5⟩)] }

/-- A hive-mind response carrying all four ghost ids but a fractional
x-coordinate for ghost 1. -/
def respFrac : JVal :=
  JVal.jobj
    [("1", JVal.jobj [("x", JVal.jnum (3 / 2)), ("y", JVal.jnum 2)]),
     ("2", JVal.jobj [("x", JVal.jnum 3), ("y", JVal.jnum 4)]),
     ("3", JVal.jobj [("x", JVal.jnum 5), ("y", JVal.jnum 6)]),
     ("4", JVal.jobj [("x", JVal.jnum 7), ("y", JVal.jnum 8)])]

/-- A well-formed stored advisory object used as previous targets. -/
def prevTargetsSample : JVal :=
  JVal.jobj
    [("1", JVal.jobj [("x", JVal.jnum 1), ("y", JVal.jnum 1)]),
     ("2", JVal.jobj [("x", JVal.jnum 2), ("y", JVal.jnum 2)]),
     ("3", JVal.jobj [("x", JVal.jnum 3), ("y", JVal.jnum 3)]),
     ("4", JVal.jobj [("x", JVal.jnum 4), ("y", JVal.jnum 4)])]

/-- A queue entry `(p, fs)` is at BFS layer `k`: `fs` is a legal first step
from `start`, from whose target `p` is reachable in `k - 1` further edges,
and no walk from `start` to `p` is shorter than `k`. -/
def GoodEntry (W H : Int) (board : Board) (st : GhostState) (start : Pos)
    (e : Pos × Direction) (k : Nat) : Prop :=
  1 ≤ k ∧ e.2 ∈ dirs4 ∧
    App.bfsSkip board st (getNextPosition W H start e.2) = false ∧
    ReachN W H board st (getNextPosition W H start e.2) e.1 (k - 1) ∧
    (∀ m, ReachN W H board st start e.1 m → k ≤ m)

/-- A position is inert for the BFS state: all its unblocked neighbours are
already visited and none of them is the goal (such an entry can arise only
from the first ring re-enqueueing `start` on degenerate wrap widths, and
expanding it has no effect). -/
def InertPos (W H : Int) (board : Board) (st : GhostState) (goal : Pos)
    (v : List Pos) (p : Pos) : Prop :=
  ∀ d ∈ dirs4, App.bfsSkip board st (getNextPosition W H p d) = false →
    getNextPosition W H p d ∈ v ∧ getNextPosition W H p d ≠ goal

/-- The loop invariant of the `src/App.tsx` BFS: visited positions are
distinct, in range, reachable bookkeeping holds for every pending queue
entry, fully processed positions are closed under unblocked edges, the goal
was never enqueued, and the queue splits into a layer-`dA` prefix and a
layer-`dA+1` suffix of good (or inert) entries. -/
structure BfsInv (W H : Int) (board : Board) (st : GhostState)
    (start goal : Pos) (q : List (Pos × Direction)) (v : List Pos) :
    Prop where
  vnodup : v.Nodup
  vstart : start ∈ v
  vrange : ∀ p ∈ v, inRange W H p
  vnogoal : goal ∉ v
  qmem : ∀ e ∈ q, e.1 ∈ v ∧ e.1 ≠ goal
  closure : ∀ u ∈ v, (∀ e ∈ q, e.1 ≠ u) →
    ∀ d ∈ dirs4, App.bfsSkip board st (getNextPosition W H u d) = false →
      getNextPosition W H u d ∈ v
  shape : ∃ dA A B, q = A ++ B ∧
    (∀ e ∈ A, GoodEntry W H board st start e dA ∨
      InertPos W H board st goal v e.1) ∧
    (∀ e ∈ B, GoodEntry W H board st start e (dA + 1) ∨
      InertPos W H board st goal v e.1)

/-- A queue entry freshly produced while expanding node `p` with first step
`fs`: its position is newly visited, unequal to the goal, and one unblocked
step from `p`. -/
def NewEntry (W H : Int) (board : Board) (st : GhostState) (goal : Pos)
    (v vcur : List Pos) (p : Pos) (fs : Direction) (e : Pos × Direction) :
    Prop :=
  e.1 ∈ vcur ∧ e.1 ∉ v ∧ e.1 ≠ goal ∧ e.2 = fs ∧
    ∃ d ∈ dirs4, e.1 = getNextPosition W H p d ∧
      App.bfsSkip board st e.1 = false

/-- A queue entry produced by the first ring: one unblocked step from
`start`, recorded with the direction that reached it. -/
def RingEntry (W H : Int) (board : Board) (st : GhostState)
    (start goal : Pos) (vcur : List Pos) (e : Pos × Direction) : Prop :=
  e.1 ∈ vcur ∧ e.1 ≠ goal ∧ e.2 ∈ dirs4 ∧
    e.1 = getNextPosition W H start e.2 ∧
    App.bfsSkip board st e.1 = false

theorem wrapCoord_mem (B v : Int) (hB : 0 < B) (h1 : -1 ≤ v) (h2 : v ≤ B) :
    0 ≤ wrapCoord B v ∧ wrapCoord B v < B := by
  unfold wrapCoord; split_ifs <;> omega

theorem wrapCoord_id (B v : Int) (h1 : 0 ≤ v) (h2 : v < B) :
    wrapCoord B v = v := by
  unfold wrapCoord; split_ifs <;> omega

theorem wrapCoord_round_up (B v : Int) (hB : 0 < B) (h1 : 0 ≤ v) (h2 : v < B) :
    wrapCoord B (wrapCoord B (v - 1) + 1) = v := by
  unfold wrapCoord; split_ifs <;> omega

theorem wrapCoord_round_down (B v : Int) (hB : 0 < B) (h1 : 0 ≤ v)
    (h2 : v < B) : wrapCoord B (wrapCoord B (v + 1) - 1) = v := by
  unfold wrapCoord; split_ifs <;> omega

/-- After a step, the position is always inside `[0,W) × [0,H)` provided the
board dimensions are positive and the input was in range. -/
theorem getNextPosition_inRange (W H : Int) (hW : 0 < W) (hH : 0 < H)
    (p : Pos) (hp : inRange W H p) (d : Direction) :
    inRange W H (getNextPosition W H p d) := by
  obtain ⟨hx0, hxW, hy0, hyH⟩ := hp
  cases d <;>
    exact ⟨(wrapCoord_mem _ _ hW (by simp [rawStep]; omega)
        (by simp [rawStep]; omega)).1,
      (wrapCoord_mem _ _ hW (by simp [rawStep]; omega)
        (by simp [rawStep]; omega)).2,
      (wrapCoord_mem _ _ hH (by simp [rawStep]; omega)
        (by simp [rawStep]; omega)).1,
      (wrapCoord_mem _ _ hH (by simp [rawStep]; omega)
        (by simp [rawStep]; omega)).2⟩

/-- C9: for every in-range position and each of the four directions, stepping
and then stepping with the reverse direction returns the original position. -/
theorem c9_wrap_round_trip (W H : Int) (hW : 0 < W) (hH : 0 < H)
    (p : Pos) (hp : inRange W H p) (d : Direction) (hd : d ∈ dirs4) :
    getNextPosition W H (getNextPosition W H p d) (oppositeDirection d) = p := by
  obtain ⟨hx0, hxW, hy0, hyH⟩ := hp
  obtain ⟨px, py⟩ := p
  simp only [dirs4, List.mem_cons, List.not_mem_nil, or_false] at hd
  rcases hd with rfl | rfl | rfl | rfl <;>
    simp only [getNextPosition, oppositeDirection, rawStep] <;>
    exact Pos.ext2
      (by first
        | exact wrapCoord_round_up W px hW hx0 hxW
        | exact wrapCoord_round_down W px hW hx0 hxW
        | simp only []; rw [wrapCoord_id W px hx0 hxW,
            wrapCoord_id W px hx0 hxW])
      (by first
        | exact wrapCoord_round_up H py hH hy0 hyH
        | exact wrapCoord_round_down H py hH hy0 hyH
        | simp only []; rw [wrapCoord_id H py hy0 hyH,
            wrapCoord_id H py hy0 hyH])

/-- Witness for C9 at a concrete input: board 5 × 7, position (0, 6), moving
down wraps to row 0 and moving back up returns to (0, 6). -/
theorem c9_wrap_round_trip_witness :
    (0 : Int) < 5 ∧ (0 : Int) < 7 ∧ inRange 5 7 ⟨0, 6⟩ ∧
      Direction.down ∈ dirs4 ∧
      getNextPosition 5 7 (getNextPosition 5 7 ⟨0, 6⟩ Direction.down)
        (oppositeDirection Direction.down) = ⟨0, 6⟩ :=
  ⟨by norm_num, by norm_num, by decide, by decide,
    c9_wrap_round_trip 5 7 (by norm_num) (by norm_num) ⟨0, 6⟩ (by decide)
      Direction.down (by decide)⟩

/-- C10: `movePacman` preserves player walkability — if the player's cell is
not a `Wall`/`GhostHome`/`GhostHomeDoor` cell before the tick, it is not one
after — and never modifies the buffered desired direction `nextDirection`. -/
theorem c10_player_walkability (W H : Int) (board : Board) (p : PacmanT)
    (h : isWall p.position board = false) :
    isWall (App.movePacman W H board p).position board = false ∧
    (App.movePacman W H board p).nextDirection = p.nextDirection := by
  simp only [App.movePacman]
  split_ifs with h1 h2
  · simp only [Bool.not_eq_true'] at h1
    exact ⟨h1, rfl⟩
  · exact ⟨h, rfl⟩
  · simp only [Bool.not_eq_true] at h2
    exact ⟨h2, rfl⟩

/-- Witness for C10: the player at the right end of the corridor is on a
walkable cell; after the step it still is, with `nextDirection` intact. -/
theorem c10_player_walkability_witness :
    isWall pacCorridor.position corridorBoard = false ∧
    (isWall (App.movePacman 7 3 corridorBoard pacCorridor).position
        corridorBoard = false ∧
      (App.movePacman 7 3 corridorBoard pacCorridor).nextDirection =
        pacCorridor.nextDirection) :=
  ⟨by decide, c10_player_walkability 7 3 corridorBoard pacCorridor (by decide)⟩

/-- C2 (amended): the per-state traversability check `isBlockedForGhost` of
`src/unnamed/part_001` — used there by both pathfinding and movement — blocks
entry into `GhostHome`/`GhostHomeDoor` cells from a cell that is neither, for
every non-eaten ghost state, while an eaten ghost may enter both. -/
theorem c2_walkability_isBlockedForGhost (board : Board) (fromP toP : Pos)
    (st : GhostState) (hst : st ≠ GhostState.eaten)
    (hto : cellAt board toP = some CellType.ghostHome ∨
      cellAt board toP = some CellType.ghostHomeDoor)
    (hfrom : cellAt board fromP ≠ some CellType.ghostHome ∧
      cellAt board fromP ≠ some CellType.ghostHomeDoor) :
    P1.isBlockedForGhost fromP toP board st = true ∧
    P1.isBlockedForGhost fromP toP board GhostState.eaten = false := by
  obtain ⟨hf1, hf2⟩ := hfrom
  rcases hto with h | h <;>
    simp [P1.isBlockedForGhost, h, hf1, hf2, hst]

/-- Witness for C2 (amended) on the door corridor: a normal ghost is blocked
from stepping from the open cell (1,1) into the door cell (2,1); an eaten
ghost is not. -/
theorem c2_walkability_isBlockedForGhost_witness :
    GhostState.normal ≠ GhostState.eaten ∧
    (P1.isBlockedForGhost ⟨1, 1⟩ ⟨2, 1⟩ doorBoard GhostState.normal = true ∧
      P1.isBlockedForGhost ⟨1, 1⟩ ⟨2, 1⟩ doorBoard GhostState.eaten = false) :=
  ⟨by decide,
    c2_walkability_isBlockedForGhost doorBoard ⟨1, 1⟩ ⟨2, 1⟩ GhostState.normal
      (by decide) (Or.inr (by decide)) ⟨by decide, by decide⟩⟩

/-- C2 counterexample: the traversability check used by the pathfinding of
`src/App.tsx` (`findNextMove`) lets a NORMAL ghost step from an outside cell
straight into a `GHOST_HOME_DOOR` cell: on the door corridor it routes the
ghost from (1,1) into the door cell (2,1). -/
theorem c2_counterexample :
    App.findNextMove 5 3 doorBoard ⟨1, 1⟩ ⟨2, 1⟩ GhostState.normal =
      some Direction.right ∧
    cellAt doorBoard ⟨2, 1⟩ = some CellType.ghostHomeDoor ∧
    cellAt doorBoard ⟨1, 1⟩ = some CellType.empty ∧
    getNextPosition 5 3 ⟨1, 1⟩ Direction.right = ⟨2, 1⟩ := by
  refine ⟨by decide, by decide, by decide, by decide⟩

theorem dirs4_ne_none {d : Direction} (h : d ∈ dirs4) : d ≠ Direction.none := by
  simp only [dirs4, List.mem_cons, List.not_mem_nil, or_false] at h
  rcases h with rfl | rfl | rfl | rfl <;> simp

theorem oppositeDirection_ne_self {d : Direction} (h : d ≠ Direction.none) :
    oppositeDirection d ≠ d := by
  cases d <;> simp [oppositeDirection] at *

theorem safeGhostStep_some_dir {W H : Int} {pos : Pos} {d : Direction}
    {board : Board} {st : GhostState} {st2 : Pos × Direction}
    (h : P1.safeGhostStep W H pos d board st = some st2) :
    st2.2 = d ∧ d ≠ Direction.none := by
  simp only [P1.safeGhostStep] at h
  split_ifs at h with h1 h2
  obtain rfl : (getNextPosition W H pos d, d) = st2 := by
    simpa using h
  exact ⟨rfl, h1⟩

theorem safeGhostStep_isSome {W H : Int} {pos : Pos} {d : Direction}
    {board : Board} {st : GhostState} (hd : d ≠ Direction.none)
    (hb : P1.isBlockedForGhost pos (getNextPosition W H pos d) board st
      = false) :
    P1.safeGhostStep W H pos d board st =
      some (getNextPosition W H pos d, d) := by
  simp [P1.safeGhostStep, hd, hb]

theorem tryGhostMoves_some {W H : Int} {pos : Pos} {cands : List Direction}
    {board : Board} {st : GhostState} {st2 : Pos × Direction}
    (h : P1.tryGhostMoves W H pos cands board st = some st2) :
    st2.2 ∈ cands ∧ st2.2 ≠ Direction.none := by
  induction cands with
  | nil => exact absurd h (by simp [P1.tryGhostMoves])
  | cons d ds ih =>
    rw [P1.tryGhostMoves] at h
    cases hs : P1.safeGhostStep W H pos d board st with
    | none =>
      rw [hs] at h
      have := ih h
      exact ⟨List.mem_cons_of_mem _ this.1, this.2⟩
    | some st3 =>
      rw [hs] at h
      obtain rfl : st3 = st2 := by simpa using h
      obtain ⟨h1, h2⟩ := safeGhostStep_some_dir hs
      exact ⟨h1 ▸ List.mem_cons_self _ _, h1 ▸ h2⟩

theorem tryGhostMoves_ne_none {W H : Int} {pos : Pos} {cands : List Direction}
    {board : Board} {st : GhostState} {d : Direction} (hd : d ∈ cands)
    (hs : P1.safeGhostStep W H pos d board st ≠ Option.none) :
    P1.tryGhostMoves W H pos cands board st ≠ Option.none := by
  induction cands with
  | nil => exact absurd hd (by simp)
  | cons d2 ds ih =>
    rw [P1.tryGhostMoves]
    cases hs2 : P1.safeGhostStep W H pos d2 board st with
    | some st3 => simp
    | none =>
      rcases List.mem_cons.mp hd with rfl | hmem
      · exact absurd hs2 hs
      · exact ih hmem

set_option maxHeartbeats 1000000 in
/-- C1 (amended): in the `moveGhosts` of `src/unnamed/part_001`, a ghost in
`Normal` state whose position admits a legal non-reversing move never exits
the tick with the reverse of its entering direction. -/
theorem c1_no_reversal_p1 (W H : Int) (board : Board) (pac : PacmanT)
    (mode : Mode) (gem : Option TargetsMap) (gs : List Ghost)
    (rnd : Int → Nat) (g : Ghost) (hn : g.state = GhostState.normal)
    (hleg : ∃ d ∈ dirs4, d ≠ oppositeDirection g.direction ∧
      P1.isBlockedForGhost g.position (getNextPosition W H g.position d)
        board g.state = false) :
    (P1.moveGhost W H board pac mode gem gs rnd g).direction ≠
      oppositeDirection g.direction := by
  obtain ⟨d, hd4, hdop, hbl⟩ := hleg
  have hdnone : d ≠ Direction.none := dirs4_ne_none hd4
  have hsafe : P1.safeGhostStep W H g.position d board g.state =
      some (getNextPosition W H g.position d, d) :=
    safeGhostStep_isSome hdnone hbl
  have hne1 : ¬(g.state = GhostState.eaten) := by rw [hn]; decide
  have hne2 : ¬(g.state = GhostState.frightened) := by rw [hn]; decide
  have hmg : P1.moveGhost W H board pac mode gem gs rnd g =
      P1.moveGhostNormal W H board pac mode gem gs g := by
    unfold P1.moveGhost
    rw [if_neg hne1, if_neg hne2]
  rw [hmg]
  have hdc : d ∈ dirs4.filter (fun d2 => d2 ≠ oppositeDirection g.direction) :=
    List.mem_filter.mpr ⟨hd4, by simpa using hdop⟩
  have hdmo : d ∈ g.direction ::
      (dirs4.filter (fun d2 => d2 ≠ oppositeDirection g.direction)).filter
        (fun d2 => d2 ≠ g.direction) := by
    by_cases hgd : d = g.direction
    · exact hgd ▸ List.mem_cons_self _ _
    · exact List.mem_cons_of_mem _
        (List.mem_filter.mpr ⟨hdc, by simpa using hgd⟩)
  have hnn : P1.tryGhostMoves W H g.position
      (g.direction ::
        (dirs4.filter (fun d2 => d2 ≠ oppositeDirection g.direction)).filter
          (fun d2 => d2 ≠ g.direction)) board g.state ≠ Option.none :=
    tryGhostMoves_ne_none hdmo (by rw [hsafe]; simp)
  obtain ⟨st2, hst2⟩ := Option.ne_none_iff_exists'.mp hnn
  have hmove : st2.2 ≠ oppositeDirection g.direction := by
    obtain ⟨hmem, hne⟩ := tryGhostMoves_some hst2
    rcases List.mem_cons.mp hmem with heq | hmem2
    · rw [heq]
      exact fun hcontra =>
        oppositeDirection_ne_self (heq ▸ hne) hcontra.symm
    · have := (List.mem_filter.mp hmem2).1
      simpa using (List.mem_filter.mp this).2
  have hfb :
      (match P1.tryGhostMoves W H g.position
          (g.direction ::
            (dirs4.filter
              (fun d2 => d2 ≠ oppositeDirection g.direction)).filter
              (fun d2 => d2 ≠ g.direction)) board g.state with
        | Option.some st3 => { g with position := st3.1, direction := st3.2 }
        | Option.none => g).direction ≠ oppositeDirection g.direction := by
    rw [hst2]
    exact hmove
  simp only [P1.moveGhostNormal]
  cases hbd : P1.findNextMove W H board g.position
      (App.ghostTargetSel mode gem g pac gs) g.state with
  | none => exact hfb
  | some bd =>
    dsimp only
    by_cases hbdc : bd ≠ Direction.up ∧ bd ∈ dirs4.filter
        (fun d2 => d2 ≠ oppositeDirection g.direction)
    · rw [if_pos hbdc]
      cases hsg : P1.safeGhostStep W H g.position bd board g.state with
      | some st3 =>
        obtain ⟨h1, _⟩ := safeGhostStep_some_dir hsg
        show st3.2 ≠ oppositeDirection g.direction
        rw [h1]
        simpa using (List.mem_filter.mp hbdc.2).2
      | none => exact hfb
    · rw [if_neg hbdc]
      exact hfb

/-- Witness for C1 (amended): in the corridor, the rightward ghost has RIGHT
as a legal non-reversing move, and the `part_001` mover does not reverse it. -/
theorem c1_no_reversal_p1_witness :
    ghostRightward.state = GhostState.normal ∧
    (Direction.right ∈ dirs4 ∧
      Direction.right ≠ oppositeDirection ghostRightward.direction ∧
      P1.isBlockedForGhost ghostRightward.position
        (getNextPosition 7 3 ghostRightward.position Direction.right)
        corridorBoard ghostRightward.state = false) ∧
    (P1.moveGhost 7 3 corridorBoard pacCorridor Mode.scatter Option.none
        [ghostRightward] (fun _ => 0) ghostRightward).direction ≠
      oppositeDirection ghostRightward.direction :=
  ⟨by decide, ⟨by decide, by decide, by decide⟩,
    c1_no_reversal_p1 7 3 corridorBoard pacCorridor Mode.scatter Option.none
      [ghostRightward] (fun _ => 0) ghostRightward (by decide)
      ⟨Direction.right, by decide, by decide, by decide⟩⟩

/-- C1 counterexample: in the `moveGhosts` of `src/App.tsx`, the same
corridor ghost (normal state, moving RIGHT, with RIGHT legal and
non-reversing) exits the tick moving LEFT — the exact reverse of its entering
direction — because the BFS first step toward the target behind it is applied
unfiltered. -/
theorem c1_counterexample :
    ghostRightward.state = GhostState.normal ∧
    Direction.right ≠ oppositeDirection ghostRightward.direction ∧
    P1.isBlockedForGhost ghostRightward.position
      (getNextPosition 7 3 ghostRightward.position Direction.right)
      corridorBoard GhostState.normal = false ∧
    (App.moveGhost 7 3 corridorBoard pacCorridor Mode.scatter Option.none
        [ghostRightward] (fun _ => 0) ghostRightward).direction =
      oppositeDirection ghostRightward.direction := by
  refine ⟨by decide, by decide, by decide, by decide⟩

theorem scanGhosts_preserves (p : Pos) (l : List Ghost) (s : AppState) :
    (App.scanGhosts p l s).1.board = s.board ∧
    (App.scanGhosts p l s).1.pacman = s.pacman ∧
    (App.scanGhosts p l s).1.gameState = s.gameState ∧
    (App.scanGhosts p l s).1.lives = s.lives ∧
    (App.scanGhosts p l s).1.eatenPellets = s.eatenPellets ∧
    (App.scanGhosts p l s).1.frightenedTicks = s.frightenedTicks ∧
    (App.scanGhosts p l s).1.ghostMode = s.ghostMode ∧
    (App.scanGhosts p l s).1.modeTicks = s.modeTicks ∧
    (App.scanGhosts p l s).1.scheduleIndex = s.scheduleIndex ∧
    (App.scanGhosts p l s).1.geminiTargets = s.geminiTargets := by
  induction l generalizing s with
  | nil => exact ⟨rfl, rfl, rfl, rfl, rfl, rfl, rfl, rfl, rfl, rfl⟩
  | cons g gs ih =>
    rw [App.scanGhosts]
    split_ifs with h1 h2 h3
    · exact ih _
    · exact ⟨rfl, rfl, rfl, rfl, rfl, rfl, rfl, rfl, rfl, rfl⟩
    · exact ih _
    · exact ih _

theorem scanGhosts_no_colocated (p : Pos) (l : List Ghost) (s : AppState)
    (h : ∀ g ∈ l, ¬(g.position.x = p.x ∧ g.position.y = p.y)) :
    App.scanGhosts p l s = (s, false) := by
  induction l generalizing s with
  | nil => rfl
  | cons g gs ih =>
    rw [App.scanGhosts]
    rw [if_neg (h g (List.mem_cons_self _ _))]
    exact ih _ (fun g2 hg2 => h g2 (List.mem_cons_of_mem _ hg2))

theorem scanGhosts_fatal (p : Pos) (l : List Ghost) (s : AppState)
    (h1 : ∃ g ∈ l, (g.position.x = p.x ∧ g.position.y = p.y) ∧
      g.state = GhostState.normal)
    (h2 : ∀ g ∈ l, (g.position.x = p.x ∧ g.position.y = p.y) →
      g.state ≠ GhostState.frightened) :
    App.scanGhosts p l s = (s, true) := by
  induction l generalizing s with
  | nil => exact absurd h1 (by simp)
  | cons g gs ih =>
    rw [App.scanGhosts]
    by_cases hcol : g.position.x = p.x ∧ g.position.y = p.y
    · rw [if_pos hcol]
      have hgf : g.state ≠ GhostState.frightened :=
        h2 g (List.mem_cons_self _ _) hcol
      rw [if_neg hgf]
      by_cases hgn : g.state = GhostState.normal
      · rw [if_pos hgn]
      · rw [if_neg hgn]
        obtain ⟨g2, hg2, hcol2, hst2⟩ := h1
        rcases List.mem_cons.mp hg2 with rfl | hmem
        · exact absurd hst2 hgn
        · exact ih _ ⟨g2, hmem, hcol2, hst2⟩
            (fun g3 hg3 => h2 g3 (List.mem_cons_of_mem _ hg3))
    · rw [if_neg hcol]
      obtain ⟨g2, hg2, hcol2, hst2⟩ := h1
      rcases List.mem_cons.mp hg2 with rfl | hmem
      · exact absurd hcol2 hcol
      · exact ih _ ⟨g2, hmem, hcol2, hst2⟩
          (fun g3 hg3 => h2 g3 (List.mem_cons_of_mem _ hg3))

theorem handleCollisions_preserves (fd : Int) (sp : PacmanT)
    (sg : List Ghost) (sb : Board) (s : AppState) :
    (App.handleCollisions fd sp sg sb s).ghostMode = s.ghostMode ∧
    (App.handleCollisions fd sp sg sb s).modeTicks = s.modeTicks ∧
    (App.handleCollisions fd sp sg sb s).scheduleIndex = s.scheduleIndex ∧
    (App.handleCollisions fd sp sg sb s).geminiTargets = s.geminiTargets ∧
    (App.handleCollisions fd sp sg sb s).pacman = s.pacman := by
  have h := scanGhosts_preserves sp.position sg s
  simp only [App.handleCollisions]
  split_ifs with h1 h2 h3 <;>
    exact ⟨h.2.2.2.2.2.2.1, h.2.2.2.2.2.2.2.1, h.2.2.2.2.2.2.2.2.1,
      h.2.2.2.2.2.2.2.2.2, h.2.1⟩

theorem tickTail_frightened (gs : ℚ) (sf si : Int) (s : AppState)
    (h : sf > 0) :
    (App.tickTail gs sf si s).modeTicks = s.modeTicks ∧
    (App.tickTail gs sf si s).ghostMode = s.ghostMode ∧
    (App.tickTail gs sf si s).scheduleIndex = s.scheduleIndex ∧
    (App.tickTail gs sf si s).frightenedTicks = sf - 1 ∧
    (sf = 1 → ∀ g ∈ (App.tickTail gs sf si s).ghosts,
      g.state ≠ GhostState.frightened) := by
  simp only [App.tickTail, if_pos h]
  split_ifs with h0
  · refine ⟨rfl, rfl, rfl, rfl, ?_⟩
    intro _ g hg
    simp only [List.mem_map] at hg
    obtain ⟨g0, _, rfl⟩ := hg
    by_cases hs : g0.state = GhostState.frightened
    · rw [if_pos hs]
      simp
    · rw [if_neg hs]
      exact hs
  · refine ⟨rfl, rfl, rfl, rfl, ?_⟩
    intro h1
    exact absurd (by omega : sf - 1 = 0) h0

/-- C6: while the Frightened countdown is positive, the tick leaves the
scatter/chase counter, the schedule index and the mode untouched and
decrements the countdown; on the tick it reaches zero no ghost remains in
`Frightened` state. -/
theorem c6_frightened_pauses_schedule (W H : Int) (gs : ℚ) (fd : Int)
    (rnd : Int → Nat) (s : AppState) (h : s.frightenedTicks > 0) :
    (App.gameTick W H gs fd rnd s).modeTicks = s.modeTicks ∧
    (App.gameTick W H gs fd rnd s).ghostMode = s.ghostMode ∧
    (App.gameTick W H gs fd rnd s).scheduleIndex = s.scheduleIndex ∧
    (App.gameTick W H gs fd rnd s).frightenedTicks = s.frightenedTicks - 1 ∧
    (s.frightenedTicks = 1 → ∀ g ∈ (App.gameTick W H gs fd rnd s).ghosts,
      g.state ≠ GhostState.frightened) := by
  simp only [App.gameTick]
  have hp := handleCollisions_preserves fd s.pacman s.ghosts s.board
    { s with pacman := App.movePacman W H s.board s.pacman,
             ghosts := App.moveGhosts W H s.board s.pacman s.ghostMode
               s.geminiTargets rnd s.ghosts }
  have ht := tickTail_frightened gs s.frightenedTicks s.scheduleIndex
    (App.handleCollisions fd s.pacman s.ghosts s.board
      { s with pacman := App.movePacman W H s.board s.pacman,
               ghosts := App.moveGhosts W H s.board s.pacman s.ghostMode
                 s.geminiTargets rnd s.ghosts }) h
  exact ⟨ht.1.trans hp.2.1, ht.2.1.trans hp.1, ht.2.2.1.trans hp.2.2.1,
    ht.2.2.2.1, ht.2.2.2.2⟩

/-- Witness for C6 on a concrete state whose frightened countdown is 1. -/
theorem c6_frightened_pauses_schedule_witness :
    sampleStateFrightened.frightenedTicks > 0 ∧
    ((App.gameTick 3 1 100 30 (fun _ => 0)
        sampleStateFrightened).modeTicks = sampleStateFrightened.modeTicks ∧
      (App.gameTick 3 1 100 30 (fun _ => 0)
        sampleStateFrightened).ghostMode = sampleStateFrightened.ghostMode ∧
      (App.gameTick 3 1 100 30 (fun _ => 0)
          sampleStateFrightened).scheduleIndex =
        sampleStateFrightened.scheduleIndex ∧
      (App.gameTick 3 1 100 30 (fun _ => 0)
          sampleStateFrightened).frightenedTicks =
        sampleStateFrightened.frightenedTicks - 1 ∧
      (sampleStateFrightened.frightenedTicks = 1 →
        ∀ g ∈ (App.gameTick 3 1 100 30 (fun _ => 0)
          sampleStateFrightened).ghosts,
          g.state ≠ GhostState.frightened)) :=
  ⟨by decide,
    c6_frightened_pauses_schedule 3 1 100 30 (fun _ => 0)
      sampleStateFrightened (by decide)⟩

/-- C3 (amended): `handleCollisions` of `src/App.tsx` resolves player–ghost
contact FIRST; when a co-located `Normal` ghost exists (and no co-located
`Frightened` one), exactly one life is lost, the state becomes `Paused`, and
the board, pellet counter and score are untouched that call — the pellet
check never runs after a fatal collision.  (The level-won transition lives in
a separate `useEffect` watcher on the pellet counter, not in the resolver.) -/
theorem c3_fatal_collision_first (fd : Int) (sp : PacmanT) (sg : List Ghost)
    (sb : Board) (s : AppState)
    (hfatal : ∃ g ∈ sg, (g.position.x = sp.position.x ∧
      g.position.y = sp.position.y) ∧ g.state = GhostState.normal)
    (hnofri : ∀ g ∈ sg, (g.position.x = sp.position.x ∧
      g.position.y = sp.position.y) → g.state ≠ GhostState.frightened) :
    (App.handleCollisions fd sp sg sb s).lives = s.lives - 1 ∧
    (App.handleCollisions fd sp sg sb s).gameState = GameStateK.paused ∧
    (App.handleCollisions fd sp sg sb s).board = s.board ∧
    (App.handleCollisions fd sp sg sb s).eatenPellets = s.eatenPellets ∧
    (App.handleCollisions fd sp sg sb s).score = s.score := by
  simp only [App.handleCollisions, scanGhosts_fatal sp.position sg s hfatal
    hnofri]
  exact ⟨rfl, rfl, rfl, rfl, rfl⟩

/-- Witness for C3 (amended): player on a pellet cell co-located with a
normal ghost loses exactly one life; board, score and pellet counter keep
their values. -/
theorem c3_fatal_collision_first_witness :
    (∃ g ∈ sampleState.ghosts,
      (g.position.x = sampleState.pacman.position.x ∧
        g.position.y = sampleState.pacman.position.y) ∧
      g.state = GhostState.normal) ∧
    ((App.handleCollisions 30 sampleState.pacman sampleState.ghosts
        sampleState.board sampleState).lives = sampleState.lives - 1 ∧
      (App.handleCollisions 30 sampleState.pacman sampleState.ghosts
        sampleState.board sampleState).gameState = GameStateK.paused ∧
      (App.handleCollisions 30 sampleState.pacman sampleState.ghosts
        sampleState.board sampleState).board = sampleState.board ∧
      (App.handleCollisions 30 sampleState.pacman sampleState.ghosts
          sampleState.board sampleState).eatenPellets =
        sampleState.eatenPellets ∧
      (App.handleCollisions 30 sampleState.pacman sampleState.ghosts
        sampleState.board sampleState).score = sampleState.score) :=
  ⟨⟨ghostOnPac, by decide, by decide, by decide⟩,
    c3_fatal_collision_first 30 sampleState.pacman sampleState.ghosts
      sampleState.board sampleState
      ⟨ghostOnPac, by decide, by decide, by decide⟩
      (by decide)⟩

/-- C3 counterexample: the claim's ordering (pellet check first, then ghost
contact) fails on `src/App.tsx`: with the player on a `Pellet` cell and
co-located with a `Normal` ghost, `handleCollisions` detects the fatal
contact first and returns with the pellet still on the board, score and
pellet counter unchanged. -/
theorem c3_counterexample :
    cellAt sampleState.board sampleState.pacman.position =
      some CellType.pellet ∧
    (App.handleCollisions 30 sampleState.pacman sampleState.ghosts
      sampleState.board sampleState).board = sampleState.board ∧
    (App.handleCollisions 30 sampleState.pacman sampleState.ghosts
      sampleState.board sampleState).score = 0 ∧
    (App.handleCollisions 30 sampleState.pacman sampleState.ghosts
      sampleState.board sampleState).eatenPellets = 0 ∧
    (App.handleCollisions 30 sampleState.pacman sampleState.ghosts
      sampleState.board sampleState).lives = 2 ∧
    (App.handleCollisions 30 sampleState.pacman sampleState.ghosts
      sampleState.board sampleState).gameState = GameStateK.paused := by
  refine ⟨by decide, by decide, by decide, by decide, by decide, by decide⟩

/-- C4 (amended): on a power pellet (with no co-located ghost),
`handleCollisions` of `src/App.tsx` adds 50 to the score, restarts the
Frightened countdown to its full duration, flips every non-eaten ghost to
`Frightened` while reversing its direction, consumes the cell — but leaves
any pending advisory (hive-mind) targets untouched. -/
theorem c4_power_pellet (fd : Int) (sp : PacmanT) (sg : List Ghost)
    (sb : Board) (s : AppState)
    (hnocol : ∀ g ∈ sg, ¬(g.position.x = sp.position.x ∧
      g.position.y = sp.position.y))
    (hcell : cellAt sb sp.position = some CellType.powerPellet) :
    (App.handleCollisions fd sp sg sb s).score = s.score + 50 ∧
    (App.handleCollisions fd sp sg sb s).frightenedTicks = fd ∧
    (App.handleCollisions fd sp sg sb s).ghosts = s.ghosts.map (fun g =>
      if g.state ≠ GhostState.eaten then
        { g with state := GhostState.frightened,
                 direction := oppositeDirectionHC g.direction }
      else g) ∧
    (App.handleCollisions fd sp sg sb s).geminiTargets = s.geminiTargets ∧
    (App.handleCollisions fd sp sg sb s).eatenPellets = s.eatenPellets + 1 ∧
    (App.handleCollisions fd sp sg sb s).board =
      App.setCell sb sp.position CellType.empty := by
  simp only [App.handleCollisions,
    scanGhosts_no_colocated sp.position sg s hnocol, hcell]
  simp

/-- Witness for C4 (amended) on the concrete power-pellet state. -/
theorem c4_power_pellet_witness :
    cellAt sampleStatePower.board sampleStatePower.pacman.position =
      some CellType.powerPellet ∧
    ((App.handleCollisions 30 sampleStatePower.pacman sampleStatePower.ghosts
        sampleStatePower.board sampleStatePower).score =
      sampleStatePower.score + 50 ∧
    (App.handleCollisions 30 sampleStatePower.pacman sampleStatePower.ghosts
        sampleStatePower.board sampleStatePower).frightenedTicks = 30 ∧
    (App.handleCollisions 30 sampleStatePower.pacman sampleStatePower.ghosts
        sampleStatePower.board sampleStatePower).ghosts =
      sampleStatePower.ghosts.map (fun g =>
        if g.state ≠ GhostState.eaten then
          { g with state := GhostState.frightened,
                   direction := oppositeDirectionHC g.direction }
        else g) ∧
    (App.handleCollisions 30 sampleStatePower.pacman sampleStatePower.ghosts
        sampleStatePower.board sampleStatePower).geminiTargets =
      sampleStatePower.geminiTargets ∧
    (App.handleCollisions 30 sampleStatePower.pacman sampleStatePower.ghosts
        sampleStatePower.board sampleStatePower).eatenPellets =
      sampleStatePower.eatenPellets + 1 ∧
    (App.handleCollisions 30 sampleStatePower.pacman sampleStatePower.ghosts
        sampleStatePower.board sampleStatePower).board =
      App.setCell sampleStatePower.board sampleStatePower.pacman.position
        CellType.empty) :=
  ⟨by decide,
    c4_power_pellet 30 sampleStatePower.pacman sampleStatePower.ghosts
      sampleStatePower.board sampleStatePower (by decide) (by decide)⟩

/-- C4 counterexample: eating a power pellet does NOT invalidate pending
advisory targets in `src/App.tsx`: the stored hive-mind target map survives
the power-pellet branch of `handleCollisions` unchanged (and non-empty). -/
theorem c4_counterexample :
    cellAt sampleStatePower.board sampleStatePower.pacman.position =
      some CellType.powerPellet ∧
    sampleStatePower.geminiTargets = some [(1, ⟨5, 5⟩)] ∧
    (App.handleCollisions 30 sampleStatePower.pacman sampleStatePower.ghosts
        sampleStatePower.board sampleStatePower).geminiTargets =
      some [(1, ⟨5, 5⟩)] ∧
    (App.handleCollisions 30 sampleStatePower.pacman sampleStatePower.ghosts
        sampleStatePower.board sampleStatePower).score = 50 := by
  refine ⟨by decide, by decide, by decide, by decide⟩

theorem get?_set_self {α : Type} (l : List α) (i : Nat) (a w : α)
    (h : l.get? i = some w) : (l.set i a).get? i = some a := by
  induction l generalizing i with
  | nil => simp at h
  | cons x xs ih =>
    cases i with
    | zero => rfl
    | succ n => exact ih n (by simpa using h)

theorem get?_set_other {α : Type} (l : List α) (i j : Nat) (a : α)
    (h : i ≠ j) : (l.set i a).get? j = l.get? j := by
  induction l generalizing i j with
  | nil => simp
  | cons x xs ih =>
    cases i with
    | zero =>
      cases j with
      | zero => exact absurd rfl h
      | succ m => rfl
    | succ n =>
      cases j with
      | zero => rfl
      | succ m => exact ih n m (by omega)

theorem countP_set_int {α : Type} (f : α → Bool) (l : List α) (i : Nat)
    (a b : α) (h : l.get? i = some a) :
    ((l.set i b).countP f : Int) =
      (l.countP f : Int) - (if f a then 1 else 0) +
        (if f b then 1 else 0) := by
  induction l generalizing i with
  | nil => simp at h
  | cons x xs ih =>
    cases i with
    | zero =>
      obtain rfl : x = a := by simpa using h
      simp only [List.set, List.countP_cons]
      split_ifs <;> push_cast <;> omega
    | succ n =>
      have := ih n (by simpa using h)
      simp only [List.set, List.countP_cons]
      split_ifs at this ⊢ <;> push_cast at this ⊢ <;> omega

theorem sum_set_int (l : List Nat) (i : Nat) (v w : Nat)
    (h : l.get? i = some w) :
    (((l.set i v).sum : Nat) : Int) = ((l.sum : Nat) : Int) - w + v := by
  induction l generalizing i with
  | nil => simp at h
  | cons x xs ih =>
    cases i with
    | zero =>
      obtain rfl : x = w := by simpa using h
      simp only [List.set, List.sum_cons]
      push_cast
      omega
    | succ n =>
      have := ih n (by simpa using h)
      simp only [List.set, List.sum_cons]
      push_cast at this ⊢
      omega

theorem set_of_get?_none {α : Type} (l : List α) (i : Nat) (a : α)
    (h : l.get? i = Option.none) : l.set i a = l := by
  induction l generalizing i with
  | nil => simp
  | cons x xs ih =>
    cases i with
    | zero => simp at h
    | succ n => simpa using ih n (by simpa using h)

theorem cellAt_eq_some_elim {b : Board} {p : Pos} {c : CellType}
    (h : cellAt b p = some c) :
    0 ≤ p.y ∧ 0 ≤ p.x ∧ ∃ row, b.get? p.y.toNat = some row ∧
      row.get? p.x.toNat = some c := by
  simp only [cellAt] at h
  split_ifs at h with h1 h2
  · obtain ⟨row, hrow, h3⟩ := Option.bind_eq_some.mp h
    exact absurd h3 (by simp)
  · obtain ⟨row, hrow, h3⟩ := Option.bind_eq_some.mp h
    exact ⟨by omega, by omega, row, hrow, h3⟩

theorem cellAt_setCell_self {b : Board} {p : Pos} {c0 : CellType}
    (c : CellType) (h : cellAt b p = some c0) :
    cellAt (App.setCell b p c) p = some c := by
  obtain ⟨hy, hx, row, hrow, hcell⟩ := cellAt_eq_some_elim h
  simp only [App.setCell]
  rw [if_neg (by omega), hrow]
  simp only [Option.getD_some, cellAt]
  rw [if_neg (by omega), get?_set_self b p.y.toNat _ row hrow]
  simp only [Option.some_bind]
  rw [if_neg (by omega)]
  exact get?_set_self row p.x.toNat c _ hcell

theorem cellAt_setCell_ne {b : Board} {p : Pos} (q : Pos) (c : CellType)
    (hqp : q ≠ p) : cellAt (App.setCell b p c) q = cellAt b q := by
  simp only [App.setCell]
  split_ifs with h1
  · rfl
  · rw [not_or] at h1
    cases hrow : b.get? p.y.toNat with
    | none =>
      simp only [Option.getD_none, List.set_nil]
      rw [set_of_get?_none b p.y.toNat _ hrow]
    | some row =>
      simp only [Option.getD_some, cellAt]
      by_cases hqy : q.y < 0
      · rw [if_pos hqy, if_pos hqy]
      · rw [if_neg hqy, if_neg hqy]
        by_cases hyy : q.y = p.y
        · have hxx : q.x ≠ p.x := fun hc => hqp (Pos.ext2 hc hyy)
          rw [hyy, get?_set_self b p.y.toNat _ row hrow, hrow]
          simp only [Option.some_bind]
          by_cases hqx : q.x < 0
          · rw [if_pos hqx, if_pos hqx]
          · rw [if_neg hqx, if_neg hqx]
            exact get?_set_other row p.x.toNat q.x.toNat c (by omega)
        · rw [get?_set_other b p.y.toNat q.y.toNat _ (by omega)]

theorem pelletCount_setCell_empty {b : Board} {p : Pos} {c0 : CellType}
    (h : cellAt b p = some c0)
    (hc0 : (c0 == CellType.pellet || c0 == CellType.powerPellet) = true) :
    (pelletCount (App.setCell b p CellType.empty) : Int) =
      (pelletCount b : Int) - 1 := by
  obtain ⟨hy, hx, row, hrow, hcell⟩ := cellAt_eq_some_elim h
  simp only [App.setCell]
  rw [if_neg (by omega), hrow]
  simp only [Option.getD_some, pelletCount]
  rw [List.map_set]
  have hget : (b.map (fun r => r.countP
      (fun c => c == CellType.pellet || c == CellType.powerPellet))).get?
        p.y.toNat = some (row.countP
          (fun c => c == CellType.pellet || c == CellType.powerPellet)) := by
    rw [List.get?_map, hrow]
    rfl
  rw [sum_set_int _ _ _ _ hget]
  have hcnt := countP_set_int
    (fun c => c == CellType.pellet || c == CellType.powerPellet)
    row p.x.toNat c0 CellType.empty hcell
  rw [hcnt]
  simp only [hc0]
  simp

theorem tickTail_preserves_board (gs : ℚ) (sf si : Int) (s : AppState) :
    (App.tickTail gs sf si s).board = s.board ∧
    (App.tickTail gs sf si s).eatenPellets = s.eatenPellets := by
  simp only [App.tickTail]
  split_ifs <;> exact ⟨rfl, rfl⟩

theorem handleCollisions_board_pellets (fd : Int) (sp : PacmanT)
    (sg : List Ghost) (sb : Board) (s : AppState) :
    ((App.handleCollisions fd sp sg sb s).board = s.board ∧
      (App.handleCollisions fd sp sg sb s).eatenPellets = s.eatenPellets) ∨
    ((cellAt sb sp.position = some CellType.pellet ∨
        cellAt sb sp.position = some CellType.powerPellet) ∧
      (App.handleCollisions fd sp sg sb s).board =
        App.setCell sb sp.position CellType.empty ∧
      (App.handleCollisions fd sp sg sb s).eatenPellets =
        s.eatenPellets + 1) := by
  have h := scanGhosts_preserves sp.position sg s
  simp only [App.handleCollisions]
  split_ifs with h1 h2 h3
  · exact Or.inl ⟨h.1, h.2.2.2.2.1⟩
  · exact Or.inr ⟨h2, rfl, by
      simp only []
      rw [h.2.2.2.2.1]⟩
  · exact Or.inr ⟨h2, rfl, by
      simp only []
      rw [h.2.2.2.2.1]⟩
  · exact Or.inl ⟨h.1, h.2.2.2.2.1⟩

/-- C8: across one tick, the pellets-eaten counter never decreases; the
invariant `eatenPellets + remaining pellet cells = T` is preserved; and the
only board change a tick can make is turning the single cell at the player's
position from `Pellet`/`PowerPellet` into `Empty` — no other cell, and no
other transition, ever occurs. -/
theorem c8_pellet_monotonicity (W H : Int) (gs : ℚ) (fd : Int)
    (rnd : Int → Nat) (s : AppState) (T : Int)
    (hinv : s.eatenPellets + (pelletCount s.board : Int) = T) :
    s.eatenPellets ≤ (App.gameTick W H gs fd rnd s).eatenPellets ∧
    (App.gameTick W H gs fd rnd s).eatenPellets +
      (pelletCount (App.gameTick W H gs fd rnd s).board : Int) = T ∧
    (∀ q : Pos,
      cellAt (App.gameTick W H gs fd rnd s).board q = cellAt s.board q ∨
      (q = s.pacman.position ∧
        (cellAt s.board q = some CellType.pellet ∨
          cellAt s.board q = some CellType.powerPellet) ∧
        cellAt (App.gameTick W H gs fd rnd s).board q =
          some CellType.empty)) := by
  simp only [App.gameTick]
  set s1 : AppState :=
    { s with pacman := App.movePacman W H s.board s.pacman,
             ghosts := App.moveGhosts W H s.board s.pacman s.ghostMode
               s.geminiTargets rnd s.ghosts } with hs1def
  set r2 := App.handleCollisions fd s.pacman s.ghosts s.board s1 with hr2
  have htt := tickTail_preserves_board gs s.frightenedTicks s.scheduleIndex r2
  have hhc := handleCollisions_board_pellets fd s.pacman s.ghosts s.board s1
  have hb1 : s1.board = s.board := rfl
  have he1 : s1.eatenPellets = s.eatenPellets := rfl
  rw [← hr2] at hhc
  rcases hhc with ⟨hb, he⟩ | ⟨hcell, hb, he⟩
  · rw [htt.1, htt.2, hb, he, hb1, he1]
    exact ⟨le_refl _, hinv, fun q => Or.inl rfl⟩
  · rw [htt.1, htt.2, hb, he, he1]
    refine ⟨by omega, ?_, ?_⟩
    · rcases hcell with hc | hc
      · rw [pelletCount_setCell_empty hc (by decide)]
        omega
      · rw [pelletCount_setCell_empty hc (by decide)]
        omega
    · intro q
      by_cases hq : q = s.pacman.position
      · subst hq
        rcases hcell with hc | hc
        · exact Or.inr ⟨rfl, Or.inl hc, cellAt_setCell_self _ hc⟩
        · exact Or.inr ⟨rfl, Or.inr hc, cellAt_setCell_self _ hc⟩
      · exact Or.inl (cellAt_setCell_ne q _ hq)

/-- Witness for C8 on the pellet-row state (two pellets, none eaten,
total 2). -/
theorem c8_pellet_monotonicity_witness :
    sampleState.eatenPellets + (pelletCount sampleState.board : Int) = 2 ∧
    (sampleState.eatenPellets ≤
        (App.gameTick 3 1 100 30 (fun _ => 0) sampleState).eatenPellets ∧
      (App.gameTick 3 1 100 30 (fun _ => 0) sampleState).eatenPellets +
        (pelletCount (App.gameTick 3 1 100 30 (fun _ => 0)
          sampleState).board : Int) = 2 ∧
      (∀ q : Pos,
        cellAt (App.gameTick 3 1 100 30 (fun _ => 0) sampleState).board q =
          cellAt sampleState.board q ∨
        (q = sampleState.pacman.position ∧
          (cellAt sampleState.board q = some CellType.pellet ∨
            cellAt sampleState.board q = some CellType.powerPellet) ∧
          cellAt (App.gameTick 3 1 100 30 (fun _ => 0)
            sampleState).board q = some CellType.empty))) :=
  ⟨by decide,
    c8_pellet_monotonicity 3 1 100 30 (fun _ => 0) sampleState 2 (by decide)⟩

/-- C7 (amended): the `src/App.tsx` hive-mind boundary accepts a response
exactly when the parsed value and its entries under the four ghost-id keys
are truthy — integer coordinates are never validated; a parse failure, API
error or rejected payload sets status `error` and leaves the previously
stored advisory targets in place (it does not clear them), so targeting
equals the no-advisory baseline only when no earlier advisory is stored;
with no stored advisory the per-ghost target is the chase-target policy in
chase mode and the fixed scatter target otherwise. -/
theorem c7_advisory_validation :
    (∀ t : JVal, App.hiveAccept t = true ↔
      (truthy t = true ∧ truthyOpt (getField t "1") = true ∧
        truthyOpt (getField t "2") = true ∧
        truthyOpt (getField t "3") = true ∧
        truthyOpt (getField t "4") = true)) ∧
    (∀ resp prev : Option JVal,
      (resp = Option.none ∨
        ∃ t, resp = Option.some t ∧ App.hiveAccept t = false) →
      App.hiveUpdate resp prev = (prev, HiveStatus.error)) ∧
    (∀ (t : JVal) (prev : Option JVal), App.hiveAccept t = true →
      App.hiveUpdate (Option.some t) prev =
        (Option.some t, HiveStatus.active)) ∧
    (∀ (mode : Mode) (g : Ghost) (pac : PacmanT) (gs : List Ghost),
      App.ghostTargetSel mode Option.none g pac gs =
        if mode = Mode.chase then App.getChaseTarget g pac gs
        else g.scatterTarget) := by
  refine ⟨?_, ?_, ?_, ?_⟩
  · intro t
    simp [App.hiveAccept, Bool.and_eq_true, and_assoc]
  · intro resp prev h
    rcases h with rfl | ⟨t, rfl, ht⟩
    · rfl
    · simp [App.hiveUpdate, ht]
  · intro t prev ht
    simp [App.hiveUpdate, ht]
  · intro mode g pac gs
    cases mode <;> simp [App.ghostTargetSel]

/-- Witness for C7 (amended): a failed call keeps the previously stored
advisory object in place with status `error`. -/
theorem c7_advisory_validation_witness :
    App.hiveUpdate Option.none (Option.some prevTargetsSample) =
      (Option.some prevTargetsSample, HiveStatus.error) :=
  c7_advisory_validation.2.1 Option.none (Option.some prevTargetsSample)
    (Or.inl rfl)

/-- C7 counterexample: a response carrying all four ghost ids but a
NON-integer x-coordinate for ghost 1 is accepted as an override by the
`src/App.tsx` validation (which never checks coordinate integrality),
refuting "accepted only if it contains targets for all 4 ghost ids with
integer coordinates". -/
theorem c7_counterexample :
    App.hiveAccept respFrac = true ∧
    App.hiveUpdate (Option.some respFrac) Option.none =
      (Option.some respFrac, HiveStatus.active) ∧
    (∃ v, getField respFrac "1" = some v ∧
      ∃ q : ℚ, getField v "x" = some (JVal.jnum q) ∧
        ∀ z : Int, q ≠ (z : ℚ)) := by
  refine ⟨rfl, rfl, ?_⟩
  refine ⟨JVal.jobj [("x", JVal.jnum (3 / 2)), ("y", JVal.jnum 2)], rfl,
    ⟨3 / 2, rfl, ?_⟩⟩
  intro z hz
  have h3 : (2 : ℚ) * (z : ℚ) = 3 := by rw [← hz]; norm_num
  have h4 : (2 : ℤ) * z = 3 := by exact_mod_cast h3
  omega

theorem reachN_zero {W H : Int} {board : Board} {st : GhostState}
    {u v : Pos} (h : ReachN W H board st u v 0) : u = v := by
  cases h
  rfl

theorem reachN_prepend {W H : Int} {board : Board} {st : GhostState}
    {u u2 w : Pos} {n : Nat} (hedge : BfsEdge W H board st u u2)
    (h : ReachN W H board st u2 w n) : ReachN W H board st u w (n + 1) := by
  induction h with
  | refl => exact ReachN.snoc ReachN.refl hedge
  | snoc hr he ih => exact ReachN.snoc ih he

theorem reach_mem_of_closed {W H : Int} {board : Board} {st : GhostState}
    {start : Pos} {v : List Pos} (hstart : start ∈ v)
    (hclosed : ∀ u ∈ v, ∀ d ∈ dirs4,
      App.bfsSkip board st (getNextPosition W H u d) = false →
        getNextPosition W H u d ∈ v) :
    ∀ {n : Nat} {u : Pos}, ReachN W H board st start u n → u ∈ v := by
  intro n u h
  induction h with
  | refl => exact hstart
  | snoc hr he ih =>
    obtain ⟨d, hd, rfl, hskip⟩ := he
    exact hclosed _ ih d hd hskip

theorem length_le_area {W H : Int} (v : List Pos) (hnd : v.Nodup)
    (hr : ∀ p ∈ v, inRange W H p) : v.length ≤ W.toNat * H.toNat := by
  classical
  have hinj : ∀ x ∈ v, ∀ y ∈ v,
      (fun p : Pos => (p.x, p.y)) x = (fun p : Pos => (p.x, p.y)) y →
        x = y := by
    intro x _ y _ hxy
    simp only [Prod.mk.injEq] at hxy
    exact Pos.ext2 hxy.1 hxy.2
  have hnd2 : (v.map (fun p : Pos => (p.x, p.y))).Nodup :=
    List.Nodup.map_on hinj hnd
  have hsub : (v.map (fun p : Pos => (p.x, p.y))).toFinset ⊆
      (Finset.Ico (0 : Int) W) ×ˢ (Finset.Ico (0 : Int) H) := by
    intro z hz
    simp only [List.mem_toFinset, List.mem_map] at hz
    obtain ⟨p, hp, rfl⟩ := hz
    obtain ⟨h1, h2, h3, h4⟩ := hr p hp
    simp only [Finset.mem_product, Finset.mem_Ico]
    exact ⟨⟨h1, h2⟩, h3, h4⟩
  have hlen : v.length = (v.map (fun p : Pos => (p.x, p.y))).toFinset.card := by
    rw [List.toFinset_card_of_nodup hnd2, List.length_map]
  rw [hlen]
  calc (v.map (fun p : Pos => (p.x, p.y))).toFinset.card
      ≤ ((Finset.Ico (0 : Int) W) ×ˢ (Finset.Ico (0 : Int) H)).card :=
        Finset.card_le_card hsub
    _ = (Finset.Ico (0 : Int) W).card * (Finset.Ico (0 : Int) H).card :=
        Finset.card_product _ _
    _ = W.toNat * H.toNat := by
        rw [Int.card_Ico, Int.card_Ico]
        simp

theorem reachN_succ_inv {W H : Int} {board : Board} {st : GhostState}
    {s u : Pos} {n : Nat} (h : ReachN W H board st s u (n + 1)) :
    ∃ u2, ReachN W H board st s u2 n ∧ BfsEdge W H board st u2 u := by
  cases h with
  | snoc hr he => exact ⟨_, hr, he⟩

theorem visitedComplete {W H : Int} {board : Board} {st : GhostState}
    {start goal : Pos} {q : List (Pos × Direction)} {v : List Pos}
    {dA : Nat} {A B : List (Pos × Direction)} (hq : q = A ++ B)
    (hA : ∀ e ∈ A, GoodEntry W H board st start e dA ∨
      InertPos W H board st goal v e.1)
    (hB : ∀ e ∈ B, GoodEntry W H board st start e (dA + 1) ∨
      InertPos W H board st goal v e.1)
    (hstart : start ∈ v)
    (hclosure : ∀ u ∈ v, (∀ e ∈ q, e.1 ≠ u) → ∀ d ∈ dirs4,
      App.bfsSkip board st (getNextPosition W H u d) = false →
        getNextPosition W H u d ∈ v) :
    ∀ m, m ≤ dA → ∀ u, ReachN W H board st start u m → u ∈ v := by
  intro m
  induction m with
  | zero =>
    intro _ u hu
    exact reachN_zero hu ▸ hstart
  | succ n ih =>
    intro hn u hu
    obtain ⟨u2, hr, he⟩ := reachN_succ_inv hu
    obtain ⟨d, hd, rfl, hskip⟩ := he
    have hu2v : u2 ∈ v := ih (by omega) _ hr
    by_cases hqe : ∀ e ∈ q, e.1 ≠ u2
    · exact hclosure u2 hu2v hqe d hd hskip
    · push_neg at hqe
      obtain ⟨e, he2, heq⟩ := hqe
      rw [hq] at he2
      rcases List.mem_append.mp he2 with heA | heB2
      · rcases hA e heA with hg | hi
        · exfalso
          have := hg.2.2.2.2 n (heq ▸ hr)
          have h1 := hg.1
          omega
        · rw [heq] at hi
          exact (hi d hd hskip).1
      · rcases hB e heB2 with hg | hi
        · exfalso
          have := hg.2.2.2.2 n (heq ▸ hr)
          omega
        · rw [heq] at hi
          exact (hi d hd hskip).1

theorem nodup_append_singleton {α : Type} {l : List α} {a : α}
    (h : l.Nodup) (ha : a ∉ l) : (l ++ [a]).Nodup := by
  simp [List.nodup_append, h, ha]

theorem expand_spec {W H : Int} {board : Board} {st : GhostState}
    {goal p : Pos} {fs : Direction} {v : List Pos} (hW : 0 < W) (hH : 0 < H)
    (hp : inRange W H p) :
    ∀ (ds : List Direction) (qacc : List (Pos × Direction))
      (vcur : List Pos),
    ds ⊆ dirs4 →
    vcur.Nodup →
    (∀ x ∈ v, x ∈ vcur) →
    goal ∉ vcur →
    (∀ e ∈ qacc, NewEntry W H board st goal v vcur p fs e) →
    vcur.length = v.length + qacc.length →
    (∀ x ∈ vcur, x ∈ v ∨ ∃ e ∈ qacc, e.1 = x) →
    (∀ x ∈ vcur, inRange W H x) →
    ((∀ f, App.expand W H board st goal p fs ds qacc vcur = Sum.inl f →
        f = fs ∧ ∃ d ∈ ds, getNextPosition W H p d = goal ∧
          App.bfsSkip board st goal = false) ∧
      (∀ qf vf,
        App.expand W H board st goal p fs ds qacc vcur = Sum.inr (qf, vf) →
        vf.Nodup ∧ (∀ x ∈ vcur, x ∈ vf) ∧ goal ∉ vf ∧
        (∀ e ∈ qf, NewEntry W H board st goal v vf p fs e) ∧
        vf.length = v.length + qf.length ∧
        (∀ x ∈ vf, x ∈ v ∨ ∃ e ∈ qf, e.1 = x) ∧
        (∀ x ∈ vf, inRange W H x) ∧
        (∃ qnew, qf = qacc ++ qnew) ∧
        (∀ d ∈ ds, App.bfsSkip board st (getNextPosition W H p d) = false →
          getNextPosition W H p d ∈ vf))) := by
  intro ds
  induction ds with
  | nil =>
    intro qacc vcur _ h2 h3 h4 h5 h6 h7 h8
    constructor
    · intro f hf
      exact absurd hf (by simp [App.expand])
    · intro qf vf hqv
      obtain ⟨rfl, rfl⟩ : qacc = qf ∧ vcur = vf := by
        simpa [App.expand] using hqv
      exact ⟨h2, fun x hx => hx, h4, h5, h6, h7, h8, ⟨[], by simp⟩,
        by simp⟩
  | cons d ds ih =>
    intro qacc vcur hsub h2 h3 h4 h5 h6 h7 h8
    have hd4 : d ∈ dirs4 := hsub (List.mem_cons_self _ _)
    have hsub2 : ds ⊆ dirs4 := fun x hx => hsub (List.mem_cons_of_mem _ hx)
    rw [App.expand]
    split_ifs with h1 hskip hgoal
    · -- neighbour already visited
      have hrec := ih qacc vcur hsub2 h2 h3 h4 h5 h6 h7 h8
      refine ⟨?_, ?_⟩
      · intro f hf
        obtain ⟨rfl, d2, hd2, hg, hs⟩ := hrec.1 f hf
        exact ⟨rfl, d2, List.mem_cons_of_mem _ hd2, hg, hs⟩
      · intro qf vf hqv
        obtain ⟨c1, c2, c3, c4, c5, c6, c7, c8, c9⟩ := hrec.2 qf vf hqv
        refine ⟨c1, c2, c3, c4, c5, c6, c7, c8, ?_⟩
        intro d2 hd2 hsk
        rcases List.mem_cons.mp hd2 with rfl | hmem
        · exact c2 _ h1
        · exact c9 d2 hmem hsk
    · -- neighbour blocked
      have hrec := ih qacc vcur hsub2 h2 h3 h4 h5 h6 h7 h8
      refine ⟨?_, ?_⟩
      · intro f hf
        obtain ⟨rfl, d2, hd2, hg, hs⟩ := hrec.1 f hf
        exact ⟨rfl, d2, List.mem_cons_of_mem _ hd2, hg, hs⟩
      · intro qf vf hqv
        obtain ⟨c1, c2, c3, c4, c5, c6, c7, c8, c9⟩ := hrec.2 qf vf hqv
        refine ⟨c1, c2, c3, c4, c5, c6, c7, c8, ?_⟩
        intro d2 hd2 hsk
        rcases List.mem_cons.mp hd2 with rfl | hmem
        · exact absurd hsk (by simp [hskip])
        · exact c9 d2 hmem hsk
    · -- goal generated: return fs
      refine ⟨?_, ?_⟩
      · intro f hf
        obtain rfl : fs = f := by simpa using hf
        refine ⟨rfl, d, List.mem_cons_self _ _, hgoal, ?_⟩
        rw [← hgoal]
        simpa using hskip
      · intro qf vf hqv
        exact absurd hqv (by simp)
    · -- fresh non-goal neighbour: enqueue and visit
      have hnew : App.addVisited vcur (getNextPosition W H p d) =
          vcur ++ [getNextPosition W H p d] := by
        rw [App.addVisited, if_neg h1]
      rw [hnew]
      have hnp : NewEntry W H board st goal v
          (vcur ++ [getNextPosition W H p d]) p fs
          (getNextPosition W H p d, fs) := by
        refine ⟨by simp, fun hc => h1 (h3 _ hc), hgoal, rfl, d, hd4, rfl, ?_⟩
        simpa using hskip
      have hrec := ih (qacc ++ [(getNextPosition W H p d, fs)])
        (vcur ++ [getNextPosition W H p d]) hsub2
        (nodup_append_singleton h2 h1)
        (fun x hx => List.mem_append_left _ (h3 x hx))
        (by
          intro hc
          rcases List.mem_append.mp hc with hc1 | hc2
          · exact h4 hc1
          · exact hgoal
              ((by simpa using hc2 : goal = getNextPosition W H p d)).symm)
        (by
          intro e he
          rcases List.mem_append.mp he with he1 | he2
          · obtain ⟨n1, n2, n3, n4, n5⟩ := h5 e he1
            exact ⟨List.mem_append_left _ n1, n2, n3, n4, n5⟩
          · obtain rfl : e = (getNextPosition W H p d, fs) := by
              simpa using he2
            exact hnp)
        (by simp [h6]; omega)
        (by
          intro x hx
          rcases List.mem_append.mp hx with hx1 | hx2
          · rcases h7 x hx1 with hv | ⟨e, he, heq⟩
            · exact Or.inl hv
            · exact Or.inr ⟨e, List.mem_append_left _ he, heq⟩
          · refine Or.inr ⟨(getNextPosition W H p d, fs), ?_, ?_⟩
            · exact List.mem_append_right _ (by simp)
            · exact ((by simpa using hx2 :
                x = getNextPosition W H p d)).symm)
        (by
          intro x hx
          rcases List.mem_append.mp hx with hx1 | hx2
          · exact h8 x hx1
          · obtain rfl : x = getNextPosition W H p d := by simpa using hx2
            exact getNextPosition_inRange W H hW hH p hp d)
      refine ⟨?_, ?_⟩
      · intro f hf
        obtain ⟨rfl, d2, hd2, hg, hs⟩ := hrec.1 f hf
        exact ⟨rfl, d2, List.mem_cons_of_mem _ hd2, hg, hs⟩
      · intro qf vf hqv
        obtain ⟨c1, c2, c3, c4, c5, c6, c7, c8, c9⟩ := hrec.2 qf vf hqv
        refine ⟨c1, fun x hx => c2 x (List.mem_append_left _ hx), c3, c4, c5,
          c6, c7, ?_, ?_⟩
        · obtain ⟨qnew, hqnew⟩ := c8
          exact ⟨(getNextPosition W H p d, fs) :: qnew, by simp [hqnew]⟩
        · intro d2 hd2 hsk
          rcases List.mem_cons.mp hd2 with rfl | hmem
          · exact c2 _ (List.mem_append_right _ (by simp))
          · exact c9 d2 hmem hsk

theorem mem_addVisited_self (v : List Pos) (p : Pos) :
    p ∈ App.addVisited v p := by
  rw [App.addVisited]
  split_ifs with h
  · exact h
  · simp

theorem mem_addVisited_of_mem {v : List Pos} {x : Pos} (p : Pos)
    (h : x ∈ v) : x ∈ App.addVisited v p := by
  rw [App.addVisited]
  split_ifs
  · exact h
  · exact List.mem_append_left _ h

theorem mem_addVisited_elim {v : List Pos} {x p : Pos}
    (h : x ∈ App.addVisited v p) : x ∈ v ∨ x = p := by
  rw [App.addVisited] at h
  split_ifs at h
  · exact Or.inl h
  · rcases List.mem_append.mp h with h1 | h2
    · exact Or.inl h1
    · exact Or.inr (by simpa using h2)

theorem addVisited_nodup {v : List Pos} (p : Pos) (h : v.Nodup) :
    (App.addVisited v p).Nodup := by
  rw [App.addVisited]
  split_ifs with h1
  · exact h
  · exact nodup_append_singleton h h1

theorem addVisited_length (v : List Pos) (p : Pos) :
    (App.addVisited v p).length ≤ v.length + 1 := by
  rw [App.addVisited]
  split_ifs
  · omega
  · simp

theorem ring_spec {W H : Int} {board : Board} {st : GhostState}
    {start goal : Pos} (hW : 0 < W) (hH : 0 < H) (hs : inRange W H start) :
    ∀ (ds : List Direction) (qacc : List (Pos × Direction))
      (vcur : List Pos),
    ds ⊆ dirs4 →
    vcur.Nodup →
    start ∈ vcur →
    goal ∉ vcur →
    (∀ e ∈ qacc, RingEntry W H board st start goal vcur e) →
    (∀ x ∈ vcur, x = start ∨ ∃ e ∈ qacc, e.1 = x) →
    (∀ x ∈ vcur, inRange W H x) →
    vcur.length ≤ 1 + qacc.length →
    ((∀ f, App.ringLoop W H board st start goal ds qacc vcur = Sum.inl f →
        f ∈ ds ∧ getNextPosition W H start f = goal ∧
          App.bfsSkip board st goal = false) ∧
      (∀ qf vf,
        App.ringLoop W H board st start goal ds qacc vcur =
          Sum.inr (qf, vf) →
        vf.Nodup ∧ start ∈ vf ∧ goal ∉ vf ∧ (∀ x ∈ vcur, x ∈ vf) ∧
        (∀ e ∈ qf, RingEntry W H board st start goal vf e) ∧
        (∀ x ∈ vf, x = start ∨ ∃ e ∈ qf, e.1 = x) ∧
        (∀ x ∈ vf, inRange W H x) ∧
        vf.length ≤ 1 + qf.length ∧
        qf.length ≤ qacc.length + ds.length ∧
        (∀ d ∈ ds,
          App.bfsSkip board st (getNextPosition W H start d) = false →
          getNextPosition W H start d ∈ vf ∧
            getNextPosition W H start d ≠ goal))) := by
  intro ds
  induction ds with
  | nil =>
    intro qacc vcur _ h2 h3 h4 h5 h6 h7 h8
    constructor
    · intro f hf
      exact absurd hf (by simp [App.ringLoop])
    · intro qf vf hqv
      obtain ⟨rfl, rfl⟩ : qacc = qf ∧ vcur = vf := by
        simpa [App.ringLoop] using hqv
      exact ⟨h2, h3, h4, fun x hx => hx, h5, h6, h7, h8, by simp, by simp⟩
  | cons d ds ih =>
    intro qacc vcur hsub h2 h3 h4 h5 h6 h7 h8
    have hd4 : d ∈ dirs4 := hsub (List.mem_cons_self _ _)
    have hsub2 : ds ⊆ dirs4 := fun x hx => hsub (List.mem_cons_of_mem _ hx)
    have hnpr := getNextPosition_inRange W H hW hH start hs d
    rw [App.ringLoop]
    rw [if_neg (by
      obtain ⟨r1, r2, r3, r4⟩ := hnpr
      push_neg
      exact ⟨by omega, by omega, by omega, by omega⟩)]
    split_ifs with hskip hgoal
    · -- neighbour blocked
      have hrec := ih qacc vcur hsub2 h2 h3 h4 h5 h6 h7 h8
      refine ⟨?_, ?_⟩
      · intro f hf
        obtain ⟨hd2, hg, hsk⟩ := hrec.1 f hf
        exact ⟨List.mem_cons_of_mem _ hd2, hg, hsk⟩
      · intro qf vf hqv
        obtain ⟨c1, c2, c3, c4, c5, c6, c7, c8, c9, c10⟩ :=
          hrec.2 qf vf hqv
        refine ⟨c1, c2, c3, c4, c5, c6, c7, c8, by simp; omega, ?_⟩
        intro d2 hd2 hsk
        rcases List.mem_cons.mp hd2 with rfl | hmem
        · exact absurd hsk (by simp [hskip])
        · exact c10 d2 hmem hsk
    · -- goal hit: return d
      refine ⟨?_, ?_⟩
      · intro f hf
        obtain rfl : d = f := by simpa using hf
        refine ⟨List.mem_cons_self _ _, hgoal, ?_⟩
        rw [← hgoal]
        simpa using hskip
      · intro qf vf hqv
        exact absurd hqv (by simp)
    · -- push the neighbour
      have hre : RingEntry W H board st start goal
          (App.addVisited vcur (getNextPosition W H start d))
          (getNextPosition W H start d, d) :=
        ⟨mem_addVisited_self _ _, hgoal, hd4, rfl, by simpa using hskip⟩
      have hrec := ih (qacc ++ [(getNextPosition W H start d, d)])
        (App.addVisited vcur (getNextPosition W H start d)) hsub2
        (addVisited_nodup _ h2)
        (mem_addVisited_of_mem _ h3)
        (by
          intro hc
          rcases mem_addVisited_elim hc with hc1 | hc2
          · exact h4 hc1
          · exact hgoal hc2.symm)
        (by
          intro e he
          rcases List.mem_append.mp he with he1 | he2
          · obtain ⟨n1, n2, n3, n4, n5⟩ := h5 e he1
            exact ⟨mem_addVisited_of_mem _ n1, n2, n3, n4, n5⟩
          · obtain rfl : e = (getNextPosition W H start d, d) := by
              simpa using he2
            exact hre)
        (by
          intro x hx
          rcases mem_addVisited_elim hx with hx1 | hx2
          · rcases h6 x hx1 with hv | ⟨e, he, heq⟩
            · exact Or.inl hv
            · exact Or.inr ⟨e, List.mem_append_left _ he, heq⟩
          · refine Or.inr ⟨(getNextPosition W H start d, d), ?_, hx2.symm⟩
            exact List.mem_append_right _ (by simp))
        (by
          intro x hx
          rcases mem_addVisited_elim hx with hx1 | hx2
          · exact h7 x hx1
          · exact hx2 ▸ hnpr)
        (by
          have := addVisited_length vcur (getNextPosition W H start d)
          simp only [List.length_append, List.length_singleton]
          omega)
      refine ⟨?_, ?_⟩
      · intro f hf
        obtain ⟨hd2, hg, hsk⟩ := hrec.1 f hf
        exact ⟨List.mem_cons_of_mem _ hd2, hg, hsk⟩
      · intro qf vf hqv
        obtain ⟨c1, c2, c3, c4, c5, c6, c7, c8, c9, c10⟩ :=
          hrec.2 qf vf hqv
        refine ⟨c1, c2, c3,
          fun x hx => c4 x (mem_addVisited_of_mem _ hx), c5, c6, c7, c8,
          by simp at c9 ⊢; omega, ?_⟩
        intro d2 hd2 hsk
        rcases List.mem_cons.mp hd2 with rfl | hmem
        · exact ⟨c4 _ (mem_addVisited_self _ _), hgoal⟩
        · exact c10 d2 hmem hsk

theorem inertPos_mono {W H : Int} {board : Board} {st : GhostState}
    {goal : Pos} {v v2 : List Pos} {p : Pos}
    (hsub : ∀ x ∈ v, x ∈ v2) (h : InertPos W H board st goal v p) :
    InertPos W H board st goal v2 p :=
  fun d hd hs => ⟨hsub _ (h d hd hs).1, (h d hd hs).2⟩

theorem bfsLoop_correct {W H : Int} {board : Board} {st : GhostState}
    {start goal : Pos} (hW : 0 < W) (hH : 0 < H) :
    ∀ (fuel : Nat) (q : List (Pos × Direction)) (v : List Pos),
    BfsInv W H board st start goal q v →
    q.length + W.toNat * H.toNat ≤ fuel + v.length →
    ((App.bfsLoop W H board st goal fuel q v = Option.none →
        ¬ ∃ n, ReachN W H board st start goal n) ∧
      (∀ dr, App.bfsLoop W H board st goal fuel q v = Option.some dr →
        dr ∈ dirs4 ∧
        App.bfsSkip board st (getNextPosition W H start dr) = false ∧
        ∃ k, ReachN W H board st (getNextPosition W H start dr) goal k ∧
          (∀ m, ReachN W H board st start goal m → k + 1 ≤ m))) := by
  intro fuel
  induction fuel with
  | zero =>
    intro q v inv hb
    have hcard := length_le_area v inv.vnodup inv.vrange
    have hq : q = [] := by
      have : q.length = 0 := by omega
      simpa using this
    subst hq
    constructor
    · rintro _ ⟨n, hn⟩
      have hclosed : ∀ u ∈ v, ∀ d ∈ dirs4,
          App.bfsSkip board st (getNextPosition W H u d) = false →
            getNextPosition W H u d ∈ v := by
        intro u hu d hd hsk
        exact inv.closure u hu (by simp) d hd hsk
      exact inv.vnogoal (reach_mem_of_closed inv.vstart hclosed hn)
    · intro dr hdr
      exact absurd hdr (by simp [App.bfsLoop])
  | succ fuel ih =>
    intro q v inv hb
    match q with
    | [] =>
      constructor
      · rintro _ ⟨n, hn⟩
        have hclosed : ∀ u ∈ v, ∀ d ∈ dirs4,
            App.bfsSkip board st (getNextPosition W H u d) = false →
              getNextPosition W H u d ∈ v := by
          intro u hu d hd hsk
          exact inv.closure u hu (by simp) d hd hsk
        exact inv.vnogoal (reach_mem_of_closed inv.vstart hclosed hn)
      · intro dr hdr
        exact absurd hdr (by simp [App.bfsLoop])
    | (p, fs) :: rest =>
      obtain ⟨dA, A, B, hq, hA, hB⟩ := inv.shape
      -- reshape so that the head entry sits in the layer-dA2 prefix
      obtain ⟨dA2, A2, B2, hq2, hA2, hB2⟩ :
          ∃ dA2 A2 B2, rest = A2 ++ B2 ∧
            (∀ e ∈ (p, fs) :: A2,
              GoodEntry W H board st start e dA2 ∨
                InertPos W H board st goal v e.1) ∧
            (∀ e ∈ B2, GoodEntry W H board st start e (dA2 + 1) ∨
              InertPos W H board st goal v e.1) := by
        cases A with
        | nil =>
          have hqB : (p, fs) :: rest = B := by simpa using hq
          refine ⟨dA + 1, rest, [], by simp, ?_, by simp⟩
          intro e he
          exact hB e (hqB ▸ he)
        | cons a A' =>
          rw [List.cons_append] at hq
          injection hq with h1 h2
          subst h2
          refine ⟨dA, A', B, rfl, ?_, hB⟩
          intro e he
          rw [h1] at he
          exact hA e he
      have hqshape : (p, fs) :: rest = ((p, fs) :: A2) ++ B2 := by
        simp [hq2]
      have hvc := visitedComplete hqshape hA2 hB2 inv.vstart inv.closure
      have hpv : p ∈ v := (inv.qmem (p, fs) (List.mem_cons_self _ _)).1
      have hpr : inRange W H p := inv.vrange p hpv
      have hexp := @expand_spec W H board st goal p fs v hW hH hpr dirs4 [] v
        (fun x hx => hx) inv.vnodup (fun x hx => hx) inv.vnogoal (by simp)
        (by simp) (fun x hx => Or.inl hx) inv.vrange
      cases hres : App.expand W H board st goal p fs dirs4 [] v with
      | inl f =>
        obtain ⟨hffs, d, hd, hgoal, hsg⟩ := hexp.1 f hres
        have hffs2 : fs = f := hffs.symm
        subst hffs2
        -- the head entry must be good: an inert head cannot generate goal
        have hgood : GoodEntry W H board st start (p, fs) dA2 := by
          rcases hA2 (p, fs) (List.mem_cons_self _ _) with hg | hi
          · exact hg
          · exfalso
            exact (hi d hd (by rw [hgoal]; exact hsg)).2 hgoal
        obtain ⟨hk1, hfs4, hfsk, hreachp, hmin⟩ := hgood
        have hedge : BfsEdge W H board st p goal :=
          ⟨d, hd, hgoal.symm, hsg⟩
        have hreachgoal : ReachN W H board st
            (getNextPosition W H start fs) goal dA2 := by
          have := ReachN.snoc hreachp hedge
          have harith : dA2 - 1 + 1 = dA2 := by omega
          rwa [harith] at this
        have hming : ∀ m, ReachN W H board st start goal m → dA2 + 1 ≤ m := by
          intro m hm
          by_contra hcon
          push_neg at hcon
          exact inv.vnogoal (hvc m (by omega) goal hm)
        constructor
        · intro hnone
          rw [App.bfsLoop, hres] at hnone
          exact absurd hnone (by simp)
        · intro dr hdr
          rw [App.bfsLoop, hres] at hdr
          obtain rfl : fs = dr := by simpa using hdr
          exact ⟨hfs4, hfsk, dA2, hreachgoal, hming⟩
      | inr vnews =>
        obtain ⟨news, v2⟩ := vnews
        obtain ⟨c1, c2, c3, c4, c5, c6, c7, c8, c9⟩ := hexp.2 news v2 hres
        have hinv2 : BfsInv W H board st start goal (rest ++ news) v2 := by
          refine ⟨c1, c2 _ inv.vstart, c7, c3, ?_, ?_, ?_⟩
          · intro e he
            rcases List.mem_append.mp he with h1 | h2
            · obtain ⟨m1, m2⟩ := inv.qmem e (List.mem_cons_of_mem _ h1)
              exact ⟨c2 _ m1, m2⟩
            · obtain ⟨n1, n2, n3, _⟩ := c4 e h2
              exact ⟨n1, n3⟩
          · intro u hu hnot d hd hsk
            rcases c6 u hu with huv | ⟨e, he, heq⟩
            · by_cases hup : u = p
              · subst hup
                exact c9 d hd hsk
              · have hq3 : ∀ e ∈ (p, fs) :: rest, e.1 ≠ u := by
                  intro e he2
                  rcases List.mem_cons.mp he2 with rfl | hmem
                  · exact fun hc => hup hc.symm
                  · exact hnot e (List.mem_append_left _ hmem)
                exact c2 _ (inv.closure u huv hq3 d hd hsk)
            · exact absurd heq (hnot e (List.mem_append_right _ he))
          · refine ⟨dA2, A2, B2 ++ news, by simp [hq2], ?_, ?_⟩
            · intro e he
              rcases hA2 e (List.mem_cons_of_mem _ he) with hg | hi
              · exact Or.inl hg
              · exact Or.inr (inertPos_mono c2 hi)
            · intro e he
              rcases List.mem_append.mp he with h1 | h2
              · rcases hB2 e h1 with hg | hi
                · exact Or.inl hg
                · exact Or.inr (inertPos_mono c2 hi)
              · rcases hA2 (p, fs) (List.mem_cons_self _ _) with hg | hi
                · obtain ⟨hk1, hfs4, hfsk, hreachp, hmin⟩ := hg
                  obtain ⟨n1, n2, n3, n4, d2, hd2, hstep, hnsk⟩ := c4 e h2
                  refine Or.inl ⟨by omega, by rw [n4]; exact hfs4,
                    by rw [n4]; exact hfsk, ?_, ?_⟩
                  · have hedge : BfsEdge W H board st p e.1 :=
                      ⟨d2, hd2, hstep, hnsk⟩
                    have := ReachN.snoc hreachp hedge
                    have harith : dA2 - 1 + 1 = dA2 := by omega
                    rw [harith] at this
                    have harith2 : dA2 + 1 - 1 = dA2 := by omega
                    rw [n4, harith2]
                    exact this
                  · intro m hm
                    by_contra hcon
                    push_neg at hcon
                    exact n2 (hvc m (by omega) e.1 hm)
                · exfalso
                  obtain ⟨n1, n2, n3, n4, d2, hd2, hstep, hnsk⟩ := c4 e h2
                  refine n2 ?_
                  rw [hstep]
                  refine (hi d2 hd2 ?_).1
                  rw [← hstep]
                  exact hnsk
        have hb2 : (rest ++ news).length + W.toNat * H.toNat ≤
            fuel + v2.length := by
          have hlen : v2.length = v.length + news.length := by
            simpa using c5
          simp only [List.length_append]
          simp only [List.length_cons] at hb
          omega
        have hrec := ih (rest ++ news) v2 hinv2 hb2
        constructor
        · intro hnone
          rw [App.bfsLoop, hres] at hnone
          exact hrec.1 hnone
        · intro dr hdr
          rw [App.bfsLoop, hres] at hdr
          exact hrec.2 dr hdr

/-- C5 (amended, for `start ≠ goal`): the `src/App.tsx` BFS returns `none`
exactly when no walk from `start` to `goal` exists under its traversability
rule, and any returned direction is a legal first step from whose target the
goal is reachable in exactly one step less than the shortest walk from
`start` — i.e. the first step of a shortest path (ties broken by the fixed
Up, Down, Left, Right expansion order mirrored in the embedding). -/
theorem c5_findNextMove_shortest (W H : Int) (board : Board)
    (start goal : Pos) (st : GhostState) (hW : 0 < W) (hH : 0 < H)
    (hs : inRange W H start) (hsg : start ≠ goal) :
    (App.findNextMove W H board start goal st = Option.none ↔
      ¬ ∃ n, ReachN W H board st start goal n) ∧
    (∀ d, App.findNextMove W H board start goal st = Option.some d →
      d ∈ dirs4 ∧
      App.bfsSkip board st (getNextPosition W H start d) = false ∧
      ∃ k, ReachN W H board st (getNextPosition W H start d) goal k ∧
        (∀ m, ReachN W H board st start goal m → k + 1 ≤ m)) := by
  have hring := @ring_spec W H board st start goal hW hH hs dirs4 [] [start]
    (fun x hx => hx) (by simp) (by simp)
    (by
      intro hc
      exact hsg ((by simpa using hc : goal = start)).symm)
    (by simp)
    (by
      intro x hx
      exact Or.inl (by simpa using hx))
    (by
      intro x hx
      obtain rfl : x = start := by simpa using hx
      exact hs)
    (by simp)
  cases hr : App.ringLoop W H board st start goal dirs4 [] [start] with
  | inl d0 =>
    obtain ⟨hd0, hgoal, hsk⟩ := hring.1 d0 hr
    have hedge : BfsEdge W H board st start goal := ⟨d0, hd0, hgoal.symm, hsk⟩
    have hreach1 : ReachN W H board st start goal 1 :=
      ReachN.snoc ReachN.refl hedge
    constructor
    · rw [App.findNextMove, hr]
      constructor
      · intro h
        exact absurd h (by simp)
      · intro hcon
        exact absurd ⟨1, hreach1⟩ hcon
    · intro d hd
      rw [App.findNextMove, hr] at hd
      obtain rfl : d0 = d := by simpa using hd
      refine ⟨hd0, by rw [hgoal]; exact hsk, 0, ?_, ?_⟩
      · rw [hgoal]
        exact ReachN.refl
      · intro m hm
        match m with
        | 0 => exact absurd (reachN_zero hm) hsg
        | n + 1 => omega
  | inr qv =>
    obtain ⟨q0, v0⟩ := qv
    obtain ⟨c1, c2, c3, c4, c5, c6, c7, c8, c9, c10⟩ := hring.2 q0 v0 hr
    have hinv : BfsInv W H board st start goal q0 v0 := by
      refine ⟨c1, c2, c7, c3, ?_, ?_, ?_⟩
      · intro e he
        obtain ⟨m1, m2, _⟩ := c5 e he
        exact ⟨m1, m2⟩
      · intro u hu hnot d hd hsk
        rcases c6 u hu with rfl | ⟨e, he, heq⟩
        · exact (c10 d hd hsk).1
        · exact absurd heq (hnot e he)
      · refine ⟨1, q0, [], by simp, ?_, by simp⟩
        intro e he
        obtain ⟨m1, m2, m3, m4, m5⟩ := c5 e he
        by_cases hes : e.1 = start
        · refine Or.inr ?_
          rw [hes]
          intro d hd hsk
          exact c10 d hd hsk
        · refine Or.inl ⟨le_refl 1, m3, ?_, ?_, ?_⟩
          · rw [← m4]
            exact m5
          · rw [← m4]
            exact ReachN.refl
          · intro m hm
            match m with
            | 0 => exact absurd (reachN_zero hm).symm hes
            | n + 1 => omega
    have hq4 : q0.length ≤ 4 := by simpa using c9
    have hloop := bfsLoop_correct hW hH (W.toNat * H.toNat + 4) q0 v0 hinv
      (by omega)
    constructor
    · rw [App.findNextMove, hr]
      constructor
      · exact hloop.1
      · intro hnot
        cases hres : App.bfsLoop W H board st goal
            (W.toNat * H.toNat + 4) q0 v0 with
        | none => exact hres
        | some dr =>
          obtain ⟨hd4, hsk, k, hreach, _⟩ := hloop.2 dr hres
          have hedge : BfsEdge W H board st start
              (getNextPosition W H start dr) := ⟨dr, hd4, rfl, hsk⟩
          exact absurd ⟨k + 1, reachN_prepend hedge hreach⟩ hnot
    · intro d hd
      rw [App.findNextMove, hr] at hd
      exact hloop.2 d hd

/-- Witness for C5 (amended) on the open 3×3 board from (0,0) to (2,2). -/
theorem c5_findNextMove_shortest_witness :
    ((0 : Int) < 3 ∧ (0 : Int) < 3 ∧ inRange 3 3 ⟨0, 0⟩ ∧
      (⟨0, 0⟩ : Pos) ≠ ⟨2, 2⟩) ∧
    ((App.findNextMove 3 3 open3Board ⟨0, 0⟩ ⟨2, 2⟩ GhostState.normal =
        Option.none ↔
      ¬ ∃ n, ReachN 3 3 open3Board GhostState.normal ⟨0, 0⟩ ⟨2, 2⟩ n) ∧
    (∀ d, App.findNextMove 3 3 open3Board ⟨0, 0⟩ ⟨2, 2⟩ GhostState.normal =
        Option.some d →
      d ∈ dirs4 ∧
      App.bfsSkip open3Board GhostState.normal
        (getNextPosition 3 3 ⟨0, 0⟩ d) = false ∧
      ∃ k, ReachN 3 3 open3Board GhostState.normal
          (getNextPosition 3 3 ⟨0, 0⟩ d) ⟨2, 2⟩ k ∧
        (∀ m, ReachN 3 3 open3Board GhostState.normal ⟨0, 0⟩ ⟨2, 2⟩ m →
          k + 1 ≤ m))) :=
  ⟨⟨by norm_num, by norm_num, by decide, by decide⟩,
    c5_findNextMove_shortest 3 3 open3Board ⟨0, 0⟩ ⟨2, 2⟩ GhostState.normal
      (by norm_num) (by norm_num) (by decide) (by decide)⟩

/-- C5 counterexample: "returns none exactly when no path exists" fails at
`start = goal`: on the open 3×3 board the BFS returns `none` for
start = goal = (1,1) although a (two-step, right-then-left) walk from (1,1)
to (1,1) exists under the same traversability rules — the loop only ever
compares generated neighbours against the goal, never the start itself. -/
theorem c5_counterexample :
    App.findNextMove 3 3 open3Board ⟨1, 1⟩ ⟨1, 1⟩ GhostState.normal =
      Option.none ∧
    ReachN 3 3 open3Board GhostState.normal ⟨1, 1⟩ ⟨1, 1⟩ 2 := by
  refine ⟨by decide, ?_⟩
  have h1 : ReachN 3 3 open3Board GhostState.normal ⟨1, 1⟩ ⟨2, 1⟩ 1 :=
    ReachN.snoc ReachN.refl
      ⟨Direction.right, by decide, by decide, by decide⟩
  exact ReachN.snoc h1 ⟨Direction.left, by decide, by decide, by decide⟩
